import Mathlib

/-!
# Mandelbrot renderer (`CV_NGTU.cpp`): row partition, escape-time iteration, colours, gather

A shallow embedding of `class MandelbrotRenderer` and of the way `render` is run by
`numProcesses` MPI processes.

* C++ `int` values are integers (`Int`); `/` and `%` on `int` are the truncating
  `Int.tdiv` and `Int.tmod`.  The `int` products whose value can leave the 32-bit range,
  `n * 50`, `n * 30`, `n * 20` (lines 75-77) and `imageWidth * rowsPerProcess * 3`
  (lines 49-50), are reduced to 32 bits by `wrapInt32` (two's-complement wrap-around,
  the result of the machine multiplication; the C++ standard leaves signed overflow
  undefined).  The statements proved for all inputs carry the bound under which these
  products do not overflow.
* C++ `double` operations are taken from an `Arith α` record, so that statements can be
  made for an arbitrary arithmetic (`Arith α`) or for the exact one (`exactArith`, on `ℚ`).
* A `cv::Mat` of type `CV_8UC3` is its byte buffer `data`: a map from byte offsets to
  byte values, pixel `(y, x)` occupying the three bytes from offset `(y * width + x) * 3`.
  The constructor `Mat(rows, cols, type)` does not initialise the bytes, so the initial
  contents of every buffer are a parameter (`Memory`).
-/

namespace Mandelbrot

/-! ## Arithmetic on `double` -/

/-- The operations on `double` that the renderer uses: conversion from `int` (also used
for the literals `0.0`, `2.0`, `4.0`), `+`, `-`, `*`, `/` and the comparison `<`. -/
structure Arith (α : Type) where
  ofInt : Int → α
  add : α → α → α
  sub : α → α → α
  mul : α → α → α
  div : α → α → α
  lt : α → α → Bool

/-- Exact arithmetic: the operations of the field `ℚ`.  It stands for `double` only in
statements made over exact arithmetic and at inputs where every value of the trace is
exactly representable in `double` (such as the point `(-2, 0)`). -/
def exactArith : Arith ℚ where
  ofInt := fun n => (n : ℚ)
  add := fun a b => a + b
  sub := fun a b => a - b
  mul := fun a b => a * b
  div := fun a b => a / b
  lt := fun a b => decide (a < b)

/-! ## The renderer object -/

/-- The configuration fields of `class MandelbrotRenderer` (lines 9-15), as set by the
constructor (lines 19-21).  The field `fractalImage` is kept in `Memory`. -/
structure MandelbrotRenderer (α : Type) where
  imageWidth : Int
  imageHeight : Int
  minX : α
  maxX : α
  minY : α
  maxY : α
  maxIterations : Int

/-- The renderer built in `main` (lines 85-93): 800 x 800, window `[-2,1] x [-1.5,1.5]`,
1000 iterations, over exact arithmetic. -/
def referenceRenderer : MandelbrotRenderer ℚ where
  imageWidth := 800
  imageHeight := 800
  minX := -2
  maxX := 1
  minY := -3/2
  maxY := 3/2
  maxIterations := 1000

/-! ## 32-bit `int` -/

/-- The value of a 32-bit `int` product whose mathematical value is `v`: reduction
modulo `2^32` into `[-2^31, 2^31)`. -/
def wrapInt32 (v : Int) : Int :=
  (v + 2147483648) % 4294967296 - 2147483648

/-! ## Row partition (lines 28-30) -/

/-- Line 28: `int rowsPerProcess = imageHeight / numProcesses;`. -/
def rowsPerProcess (imageHeight numProcesses : Int) : Int :=
  Int.tdiv imageHeight numProcesses

/-- Line 29: `int startRow = processRank * rowsPerProcess;`. -/
def startRow (imageHeight numProcesses processRank : Int) : Int :=
  processRank * rowsPerProcess imageHeight numProcesses

/-- Line 30: `int endRow = (processRank == numProcesses - 1) ? imageHeight
: startRow + rowsPerProcess;`. -/
def endRow (imageHeight numProcesses processRank : Int) : Int :=
  if processRank = numProcesses - 1 then imageHeight
  else startRow imageHeight numProcesses processRank + rowsPerProcess imageHeight numProcesses

/-! ## Escape-time iteration (lines 60-72) -/

/-- The `while` loop of `calculateMandelbrotIterations` (lines 64-69), started in the
state `(zReal, zImaginary, iterations)`; the value is `iterations` at loop exit. -/
def escapeLoop {α : Type} (A : Arith α) (maxIterations : Int) (cr ci : α)
    (zReal zImaginary : α) (iterations : Int) : Int :=
  if h : iterations < maxIterations ∧
      A.lt (A.add (A.mul zReal zReal) (A.mul zImaginary zImaginary)) (A.ofInt 4) = true then
    escapeLoop A maxIterations cr ci
      (A.add (A.sub (A.mul zReal zReal) (A.mul zImaginary zImaginary)) cr)
      (A.add (A.mul (A.mul (A.ofInt 2) zReal) zImaginary) ci)
      (iterations + 1)
  else iterations
termination_by (maxIterations - iterations).toNat
decreasing_by
  have := h.1
  omega

/-- Lines 60-72: `int calculateMandelbrotIterations(double cr, double ci)`. -/
def calculateMandelbrotIterations {α : Type} (A : Arith α) (maxIterations : Int)
    (cr ci : α) : Int :=
  escapeLoop A maxIterations cr ci (A.ofInt 0) (A.ofInt 0) 0

/-! ## Colours (lines 38-43 and 74-79) -/

/-- A `cv::Vec3b`: three `unsigned char` channels, each given by its value. -/
abbrev Vec3b := Int × Int × Int

/-- Conversion of an `int` to `unsigned char` (the arguments of the `Vec3b`
constructor): reduction modulo `2^8`. -/
def toUChar (v : Int) : Int := v % 256

/-- Lines 74-79: `Vec3b generateUniqueColor(int n)`. -/
def generateUniqueColor (n : Int) : Vec3b :=
  let r := Int.tmod (wrapInt32 (n * 50)) 255
  let g := Int.tmod (wrapInt32 (n * 30)) 255
  let b := Int.tmod (wrapInt32 (n * 20)) 255
  (toUChar r, toUChar g, toUChar b)

/-- Lines 38-43 of `render`: the colour stored for a pixel whose iteration count is
`iterations`. -/
def colorOf (iterations maxIterations : Int) : Vec3b :=
  if iterations = maxIterations then (toUChar 0, toUChar 0, toUChar 0)
  else generateUniqueColor iterations

/-! ## Image buffers and the pixel loop (lines 32-45) -/

/-- The byte buffer `data` of a `cv::Mat`: byte offset to byte value. -/
abbrev Buffer := Int → Int

/-- The assignment `fractalImage.at<Vec3b>(y, x) = p` on a continuous `CV_8UC3` matrix
with `width` columns: the three bytes from offset `(y * width + x) * 3` are replaced. -/
def setAt (width : Int) (data : Buffer) (y x : Int) (p : Vec3b) : Buffer :=
  fun i =>
    if i = (y * width + x) * 3 then p.1
    else if i = (y * width + x) * 3 + 1 then p.2.1
    else if i = (y * width + x) * 3 + 2 then p.2.2
    else data i

/-- Reading `at<Vec3b>(y, x)` from a continuous `CV_8UC3` matrix with `width` columns. -/
def getAt (width : Int) (data : Buffer) (y x : Int) : Vec3b :=
  (data ((y * width + x) * 3), data ((y * width + x) * 3 + 1), data ((y * width + x) * 3 + 2))

/-- Line 34: `double cr = minX + (maxX - minX) * x / imageWidth;`. -/
def planeX {α : Type} (A : Arith α) (R : MandelbrotRenderer α) (x : Int) : α :=
  A.add R.minX (A.div (A.mul (A.sub R.maxX R.minX) (A.ofInt x)) (A.ofInt R.imageWidth))

/-- Line 35: `double ci = minY + (maxY - minY) * y / imageHeight;`. -/
def planeY {α : Type} (A : Arith α) (R : MandelbrotRenderer α) (y : Int) : α :=
  A.add R.minY (A.div (A.mul (A.sub R.maxY R.minY) (A.ofInt y)) (A.ofInt R.imageHeight))

/-- Lines 34-43: the colour the loop body stores for pixel `(x, y)`. -/
def pixelColor {α : Type} (A : Arith α) (R : MandelbrotRenderer α) (x y : Int) : Vec3b :=
  colorOf (calculateMandelbrotIterations A R.maxIterations (planeX A R x) (planeY A R y))
    R.maxIterations

/-- The inner loop (lines 33-44) for row `y`, from column `x` on, acting on the buffer
of `fractalImage`. -/
def columnLoop {α : Type} (A : Arith α) (R : MandelbrotRenderer α) (y : Int)
    (x : Int) (data : Buffer) : Buffer :=
  if h : x < R.imageWidth then
    columnLoop A R y (x + 1) (setAt R.imageWidth data y x (pixelColor A R x y))
  else data
termination_by (R.imageWidth - x).toNat
decreasing_by omega

/-- The outer loop (lines 32-45) from row `y` up to `endRow`. -/
def rowLoop {α : Type} (A : Arith α) (R : MandelbrotRenderer α) (endRow : Int)
    (y : Int) (data : Buffer) : Buffer :=
  if h : y < endRow then
    rowLoop A R endRow (y + 1) (columnLoop A R y 0 data)
  else data
termination_by (endRow - y).toNat
decreasing_by omega

/-! ## The processes and the gather (lines 23-57) -/

/-- The uninitialised contents of the matrices: `fractalImage r` is what the buffer of
`fractalImage` holds in the process of rank `r` when `render` starts, `finalImage` what
the buffer of `finalImage` holds when rank 0 allocates it (line 48). -/
structure Memory where
  fractalImage : Int → Buffer
  finalImage : Buffer

/-- The buffer of `fractalImage` in the process of rank `processRank` once its pixel
loop (lines 28-45) has run. -/
def localImage {α : Type} (A : Arith α) (R : MandelbrotRenderer α)
    (numProcesses processRank : Int) (data : Buffer) : Buffer :=
  rowLoop A R (endRow R.imageHeight numProcesses processRank)
    (startRow R.imageHeight numProcesses processRank) data

/-- Line 47: the process enters the block holding `MPI_Gather` exactly when
`processRank == 0`. -/
def callsGather (processRank : Int) : Bool :=
  decide (processRank = 0)

/-- Lines 49-50: the element count passed to `MPI_Gather`, both as send count and as
receive count: the `int` expression `imageWidth * rowsPerProcess * 3`, two 32-bit
products. -/
def gatherCount {α : Type} (R : MandelbrotRenderer α) (numProcesses : Int) : Int :=
  wrapInt32 (wrapInt32 (R.imageWidth * rowsPerProcess R.imageHeight numProcesses) * 3)

/-- What `MPI_Gather(sendbuf, count, MPI_UNSIGNED_CHAR, recvbuf, count,
MPI_UNSIGNED_CHAR, 0, MPI_COMM_WORLD)` leaves in the receive buffer of the root (MPI
standard): the first `count` bytes of the send buffer of rank `r` are stored from offset
`r * count`; the receive buffer is not touched elsewhere. -/
def mpiGather (numProcesses : Int) (sendbuf : Int → Buffer) (count : Int)
    (recvbuf : Buffer) : Buffer :=
  fun i =>
    if 0 ≤ i ∧ i < numProcesses * count then sendbuf (i / count) (i % count)
    else recvbuf i

/-- The ranks `0, ..., numProcesses - 1` of `MPI_COMM_WORLD`. -/
def ranks (numProcesses : Int) : List Int :=
  (List.range numProcesses.toNat).map Int.ofNat

/-- The data movement of the `MPI_Gather` call of lines 49-51 with the arguments as
written: every rank sends from the start of its `fractalImage` buffer, `gatherCount`
bytes, into `finalImage` on rank 0. -/
def gatherAsCalled {α : Type} (A : Arith α) (R : MandelbrotRenderer α)
    (numProcesses : Int) (mem : Memory) : Buffer :=
  mpiGather numProcesses
    (fun r => localImage A R numProcesses r (mem.fractalImage r))
    (gatherCount R numProcesses) mem.finalImage

/-- One run of `render` by `numProcesses` processes: the buffer of `finalImage` that
rank 0 hands to `imshow`.  `MPI_Gather` is collective: it completes on the root only when
every rank of the communicator calls it, so the result is `none` (rank 0 stays blocked in
the gather, no final image) unless all ranks call it.  `MPI_Gather` also refuses a
negative count (`MPI_ERR_COUNT`, fatal under the default error handler): no final image
either. -/
def render {α : Type} (A : Arith α) (R : MandelbrotRenderer α)
    (numProcesses : Int) (mem : Memory) : Option Buffer :=
  if (ranks numProcesses).all callsGather = true ∧ 0 ≤ gatherCount R numProcesses then
    some (gatherAsCalled A R numProcesses mem)
  else none

/-- Memory whose every byte is `0`. -/
def zeroMemory : Memory where
  fractalImage := fun _ _ => 0
  finalImage := fun _ => 0

/-! ## The orbit followed by the loop -/

/-- The loop body of lines 65-67 as a map on the state `(zReal, zImaginary)`. -/
def loopBody {α : Type} (A : Arith α) (cr ci : α) (z : α × α) : α × α :=
  (A.add (A.sub (A.mul z.1 z.1) (A.mul z.2 z.2)) cr,
   A.add (A.mul (A.mul (A.ofInt 2) z.1) z.2) ci)

/-- The state `(zReal, zImaginary)` after `k` executions of the loop body, from
`(0.0, 0.0)` (line 61). -/
def orbit {α : Type} (A : Arith α) (cr ci : α) : Nat → α × α
  | 0 => (A.ofInt 0, A.ofInt 0)
  | k + 1 => loopBody A cr ci (orbit A cr ci k)

/-- The second conjunct of the loop condition (line 64):
`zReal * zReal + zImaginary * zImaginary < 4.0`. -/
def insideBound {α : Type} (A : Arith α) (z : α × α) : Bool :=
  A.lt (A.add (A.mul z.1 z.1) (A.mul z.2 z.2)) (A.ofInt 4)

/-- Channel `c` (0, 1 or 2) of a `Vec3b`: the byte stored at offset `c` of the pixel. -/
def channel (p : Vec3b) (c : Int) : Int :=
  if c = 0 then p.1 else if c = 1 then p.2.1 else p.2.2

/-- The renderer of `main` (same window and iteration cap) on an image of
`width x height` pixels. -/
def windowRenderer (width height : Int) : MandelbrotRenderer ℚ where
  imageWidth := width
  imageHeight := height
  minX := -2
  maxX := 1
  minY := -3/2
  maxY := 3/2
  maxIterations := 1000

/-! ## Further objects used by the statements -/

/-- Line 21, `fractalImage(height, width, CV_8UC3)`: the number of rows of the matrix
`fractalImage` that every process allocates. -/
def fractalImageRows {α : Type} (R : MandelbrotRenderer α) : Int :=
  R.imageHeight

/-- Line 21, `fractalImage(height, width, CV_8UC3)`: the number of columns of the matrix
`fractalImage` that every process allocates. -/
def fractalImageCols {α : Type} (R : MandelbrotRenderer α) : Int :=
  R.imageWidth

/-- The renderer of `main` with the iteration cap replaced by 0. -/
def zeroCapRenderer : MandelbrotRenderer ℚ where
  imageWidth := 800
  imageHeight := 800
  minX := -2
  maxX := 1
  minY := -3/2
  maxY := 3/2
  maxIterations := 0

/-- Memory whose every byte is `b`. -/
def filledMemory (b : Int) : Memory where
  fractalImage := fun _ _ => b
  finalImage := fun _ => b

/-! ## Row partition: facts -/

theorem rowsPerProcess_nonneg {H W : Int} (hH : 0 ≤ H) (hW : 0 ≤ W) :
    0 ≤ rowsPerProcess H W := by
  unfold rowsPerProcess
  rw [Int.tdiv_eq_ediv hH hW]
  exact Int.ediv_nonneg hH hW

theorem mul_rowsPerProcess_le {H W : Int} (hH : 0 ≤ H) (hW : 1 ≤ W) :
    W * rowsPerProcess H W ≤ H := by
  unfold rowsPerProcess
  rw [Int.tdiv_eq_ediv hH (by omega)]
  exact Int.mul_ediv_self_le (by omega)

theorem lt_mul_rowsPerProcess_add {H W : Int} (hH : 0 ≤ H) (hW : 1 ≤ W) :
    H < W * rowsPerProcess H W + W := by
  unfold rowsPerProcess
  rw [Int.tdiv_eq_ediv hH (by omega)]
  have := Int.lt_ediv_add_one_mul_self H (show 0 < W by omega)
  nlinarith

theorem startRow_le_of_le {H W i j : Int} (hH : 0 ≤ H) (hW : 0 ≤ W) (hij : i ≤ j) :
    startRow H W i ≤ startRow H W j := by
  unfold startRow
  exact Int.mul_le_mul_of_nonneg_right hij (rowsPerProcess_nonneg hH hW)

theorem endRow_eq_startRow_succ {H W i : Int} (hi : i + 1 < W) :
    endRow H W i = startRow H W (i + 1) := by
  unfold endRow startRow
  rw [if_neg (by omega)]
  ring

theorem endRow_last (H W : Int) : endRow H W (W - 1) = H := by
  unfold endRow
  rw [if_pos rfl]

theorem startRow_last_le {H W : Int} (hH : 0 ≤ H) (hW : 1 ≤ W) :
    startRow H W (W - 1) ≤ H := by
  have h1 := mul_rowsPerProcess_le hH hW
  have h2 := rowsPerProcess_nonneg hH (show 0 ≤ W by omega)
  unfold startRow
  nlinarith

/-- Two different ranks never hold a common row. -/
theorem ranges_disjoint {H W i j y : Int} (hH : 0 ≤ H) (hW : 1 ≤ W)
    (hij : i < j) (hj : j < W)
    (hi : startRow H W i ≤ y ∧ y < endRow H W i) :
    ¬ (startRow H W j ≤ y ∧ y < endRow H W j) := by
  intro hjy
  have h1 : endRow H W i = startRow H W (i + 1) := endRow_eq_startRow_succ (by omega)
  have h2 : startRow H W (i + 1) ≤ startRow H W j :=
    startRow_le_of_le hH (by omega) (by omega)
  omega

/-- Every row of `[0, H)` lies in the range of some rank. -/
theorem row_has_rank {H W y : Int} (hW : 1 ≤ W) (hy0 : 0 ≤ y) (hyH : y < H) :
    ∃ i, 0 ≤ i ∧ i < W ∧ startRow H W i ≤ y ∧ y < endRow H W i := by
  have hH : 0 ≤ H := by omega
  have hq := rowsPerProcess_nonneg hH (show 0 ≤ W by omega)
  by_cases hlast : startRow H W (W - 1) ≤ y
  · exact ⟨W - 1, by omega, by omega, hlast, by rw [endRow_last]; exact hyH⟩
  · have hlast2 : y < (W - 1) * rowsPerProcess H W := by
      unfold startRow at hlast; omega
    have hqpos : 0 < rowsPerProcess H W := by
      rcases hq.lt_or_eq with h | h
      · exact h
      · rw [← h] at hlast2; omega
    refine ⟨y / rowsPerProcess H W, Int.ediv_nonneg hy0 hq, ?_, ?_, ?_⟩
    · have h1 : y / rowsPerProcess H W < W - 1 :=
        Int.ediv_lt_of_lt_mul hqpos hlast2
      omega
    · unfold startRow
      exact Int.ediv_mul_le y (by omega)
    · have h1 : y / rowsPerProcess H W < W - 1 :=
        Int.ediv_lt_of_lt_mul hqpos hlast2
      unfold endRow startRow
      rw [if_neg (by omega)]
      have := Int.lt_ediv_add_one_mul_self y hqpos
      nlinarith

/-- C1: for every worker count `W ≥ 1` and image height `H ≥ 1`, the row ranges
`[startRow i, endRow i)` of the ranks `i = 0, ..., W-1` are contiguous (each range ends
where the next one starts, the first starts at row 0 and the last ends at row `H`),
pairwise non-overlapping, and every row `y` of `[0, H)` lies in exactly one of them. -/
theorem partition_contiguous_disjoint_cover (H W : Int) (hW : 1 ≤ W) (hH : 1 ≤ H) :
    (∀ i, 0 ≤ i → i + 1 < W → endRow H W i = startRow H W (i + 1)) ∧
    startRow H W 0 = 0 ∧ endRow H W (W - 1) = H ∧
    (∀ i, 0 ≤ i → i < W → startRow H W i ≤ endRow H W i) ∧
    (∀ i j, 0 ≤ i → i < j → j < W → ∀ y,
      ¬ ((startRow H W i ≤ y ∧ y < endRow H W i) ∧
         (startRow H W j ≤ y ∧ y < endRow H W j))) ∧
    (∀ y, 0 ≤ y → y < H →
      ∃! i, 0 ≤ i ∧ i < W ∧ startRow H W i ≤ y ∧ y < endRow H W i) := by
  have hH0 : 0 ≤ H := by omega
  refine ⟨fun i _ hi => endRow_eq_startRow_succ hi, by simp [startRow], endRow_last H W,
    ?_, ?_, ?_⟩
  · intro i hi0 hiW
    by_cases hl : i = W - 1
    · subst hl
      rw [endRow_last]
      exact startRow_last_le hH0 hW
    · have := rowsPerProcess_nonneg hH0 (show 0 ≤ W by omega)
      unfold endRow
      rw [if_neg hl]
      omega
  · intro i j _ hij hj y h
    exact ranges_disjoint hH0 hW hij hj h.1 h.2
  · intro y hy0 hyH
    obtain ⟨i, hi0, hiW, hi⟩ := row_has_rank hW hy0 hyH
    refine ⟨i, ⟨hi0, hiW, hi⟩, ?_⟩
    rintro j ⟨_, hjW, hj⟩
    rcases lt_trichotomy i j with h | h | h
    · exact absurd hj (ranges_disjoint hH0 hW h hjW hi)
    · exact h.symm
    · exact absurd hi (ranges_disjoint hH0 hW h hiW hj)

/-- Witness of C1 at `H = 10`, `W = 3`. -/
theorem partition_contiguous_disjoint_cover_witness :
    (∀ i, 0 ≤ i → i + 1 < (3 : Int) → endRow 10 3 i = startRow 10 3 (i + 1)) ∧
    startRow 10 3 0 = 0 ∧ endRow 10 3 (3 - 1) = 10 ∧
    (∀ i, 0 ≤ i → i < (3 : Int) → startRow 10 3 i ≤ endRow 10 3 i) ∧
    (∀ i j, 0 ≤ i → i < j → j < (3 : Int) → ∀ y,
      ¬ ((startRow 10 3 i ≤ y ∧ y < endRow 10 3 i) ∧
         (startRow 10 3 j ≤ y ∧ y < endRow 10 3 j))) ∧
    (∀ y, 0 ≤ y → y < (10 : Int) →
      ∃! i, 0 ≤ i ∧ i < (3 : Int) ∧ startRow 10 3 i ≤ y ∧ y < endRow 10 3 i) :=
  partition_contiguous_disjoint_cover 10 3 (by decide) (by decide)

/-! ## Escape-time iteration: facts -/

/-- The `while` loop unfolded by one pass: test of line 64, body of lines 65-68. -/
theorem escapeLoop_unfold {α : Type} (A : Arith α) (maxIterations : Int) (cr ci : α)
    (zReal zImaginary : α) (iterations : Int) :
    escapeLoop A maxIterations cr ci zReal zImaginary iterations =
      if iterations < maxIterations ∧
          A.lt (A.add (A.mul zReal zReal) (A.mul zImaginary zImaginary)) (A.ofInt 4) = true then
        escapeLoop A maxIterations cr ci
          (A.add (A.sub (A.mul zReal zReal) (A.mul zImaginary zImaginary)) cr)
          (A.add (A.mul (A.mul (A.ofInt 2) zReal) zImaginary) ci)
          (iterations + 1)
      else iterations := by
  rw [escapeLoop]
  simp only [dite_eq_ite]

/-- The loop never counts past the cap and never below its starting count. -/
theorem escapeLoop_bounds {α : Type} (A : Arith α) (maxIterations : Int) (cr ci : α) :
    ∀ (d : Nat) (zReal zImaginary : α) (iterations : Int),
      iterations + d = maxIterations →
      iterations ≤ escapeLoop A maxIterations cr ci zReal zImaginary iterations ∧
      escapeLoop A maxIterations cr ci zReal zImaginary iterations ≤ maxIterations := by
  intro d
  induction d with
  | zero =>
    intro zr zi it h
    rw [escapeLoop_unfold, if_neg (by omega)]
    omega
  | succ d ih =>
    intro zr zi it h
    rw [escapeLoop_unfold]
    split
    · have := ih (A.add (A.sub (A.mul zr zr) (A.mul zi zi)) cr)
        (A.add (A.mul (A.mul (A.ofInt 2) zr) zi) ci) (it + 1) (by push_cast at h; omega)
      omega
    · omega

/-- The loop started on the orbit at step `j` stops at the first step `k ≥ j` where the
cap is reached or the bound test fails. -/
theorem escapeLoop_least {α : Type} (A : Arith α) (maxIterations : Int) (cr ci : α) :
    ∀ (d j : Nat), (j : Int) + d = maxIterations →
      ∃ k : Nat, j ≤ k ∧
        escapeLoop A maxIterations cr ci (orbit A cr ci j).1 (orbit A cr ci j).2 j = k ∧
        (k : Int) ≤ maxIterations ∧
        ((k : Int) = maxIterations ∨ insideBound A (orbit A cr ci k) = false) ∧
        ∀ i : Nat, j ≤ i → i < k →
          ¬ ((i : Int) = maxIterations ∨ insideBound A (orbit A cr ci i) = false) := by
  intro d
  induction d with
  | zero =>
    intro j h
    refine ⟨j, le_refl j, ?_, by omega, Or.inl (by omega), fun i h1 h2 => by omega⟩
    rw [escapeLoop_unfold, if_neg (by omega)]
  | succ d ih =>
    intro j h
    by_cases hb : insideBound A (orbit A cr ci j) = true
    · obtain ⟨k, hjk, hk, hle, hstop, hmin⟩ := ih (j + 1) (by push_cast at h ⊢; omega)
      refine ⟨k, by omega, ?_, hle, hstop, ?_⟩
      · rw [escapeLoop_unfold, if_pos ⟨by omega, hb⟩]
        exact hk
      · intro i hji hik
        rcases Nat.eq_or_lt_of_le hji with heq | hlt
        · subst heq
          rintro (h1 | h1)
          · omega
          · rw [hb] at h1
            exact Bool.noConfusion h1
        · exact hmin i hlt hik
    · have hb2 : insideBound A (orbit A cr ci j) = false := by
        simpa using hb
      refine ⟨j, le_refl j, ?_, by omega, Or.inr hb2, fun i h1 h2 => by omega⟩
      rw [escapeLoop_unfold, if_neg (fun hc => hb hc.2)]

/-- C8: for every point `(cr, ci)`, every cap `maxIterations ≥ 0` and every arithmetic
on `double` (whatever values its operations and its comparison produce),
`calculateMandelbrotIterations` returns: the loop, a total function, ends after some
number `k` of passes with its condition false (the cap is reached or the bound test
fails on the state after `k` passes), and the result `n = k` satisfies
`0 ≤ n ≤ maxIterations`. -/
theorem calculateMandelbrotIterations_bounds {α : Type} (A : Arith α)
    (maxIterations : Int) (cr ci : α) (hmax : 0 ≤ maxIterations) :
    0 ≤ calculateMandelbrotIterations A maxIterations cr ci ∧
    calculateMandelbrotIterations A maxIterations cr ci ≤ maxIterations ∧
    ∃ k : Nat, calculateMandelbrotIterations A maxIterations cr ci = (k : Int) ∧
      ((k : Int) = maxIterations ∨ insideBound A (orbit A cr ci k) = false) := by
  have hb := escapeLoop_bounds A maxIterations cr ci maxIterations.toNat
    (A.ofInt 0) (A.ofInt 0) 0 (by simp [Int.toNat_of_nonneg hmax])
  obtain ⟨k, _, hk, _, hstop, _⟩ :=
    escapeLoop_least A maxIterations cr ci maxIterations.toNat 0
      (by simp [Int.toNat_of_nonneg hmax])
  unfold calculateMandelbrotIterations
  refine ⟨hb.1, hb.2, k, ?_, hstop⟩
  simpa [orbit] using hk

/-- Witness of C8: the point `(-2, 0)` with cap 1000 over exact arithmetic. -/
theorem calculateMandelbrotIterations_bounds_witness :
    0 ≤ calculateMandelbrotIterations exactArith 1000 (-2) 0 ∧
    calculateMandelbrotIterations exactArith 1000 (-2) 0 ≤ 1000 ∧
    ∃ k : Nat, calculateMandelbrotIterations exactArith 1000 (-2) 0 = (k : Int) ∧
      ((k : Int) = 1000 ∨ insideBound exactArith (orbit exactArith (-2) 0 k) = false) :=
  calculateMandelbrotIterations_bounds exactArith 1000 (-2) 0 (by decide)

/-- Over exact arithmetic the orbit of the loop is the orbit of `z ↦ z ^ 2 + c` in `ℂ`. -/
theorem orbit_exact_eq_complex (cr ci : ℚ) (k : Nat) :
    (((orbit exactArith cr ci k).1 : ℚ) : ℂ) + ((orbit exactArith cr ci k).2 : ℂ) * Complex.I
      = (fun z : ℂ => z ^ 2 + ((cr : ℂ) + (ci : ℂ) * Complex.I))^[k] 0 := by
  induction k with
  | zero => simp [orbit, exactArith]
  | succ k ih =>
    rw [Function.iterate_succ_apply', ← ih]
    have hs : orbit exactArith cr ci (k + 1)
        = loopBody exactArith cr ci (orbit exactArith cr ci k) := rfl
    rw [hs]
    generalize orbit exactArith cr ci k = z
    simp only [loopBody, exactArith]
    push_cast
    linear_combination (-(z.2 : ℂ) ^ 2) * Complex.I_sq

/-- Over exact arithmetic the bound test fails exactly when `|z|^2 ≥ 4`. -/
theorem insideBound_exact_eq_false (z : ℚ × ℚ) :
    insideBound exactArith z = false ↔
      4 ≤ Complex.normSq ((z.1 : ℂ) + (z.2 : ℂ) * Complex.I) := by
  have h : Complex.normSq ((z.1 : ℂ) + (z.2 : ℂ) * Complex.I)
      = ((z.1 * z.1 + z.2 * z.2 : ℚ) : ℝ) := by
    have := Complex.normSq_add_mul_I (z.1 : ℝ) (z.2 : ℝ)
    push_cast at this ⊢
    rw [this]
    ring
  rw [h]
  simp only [insideBound, exactArith, decide_eq_false_iff_not, not_lt]
  constructor
  · intro h4
    have : ((4 : ℚ) : ℝ) ≤ ((z.1 * z.1 + z.2 * z.2 : ℚ) : ℝ) := by
      exact_mod_cast h4
    simpa using this
  · intro h4
    have : ((4 : ℚ) : ℝ) ≤ ((z.1 * z.1 + z.2 * z.2 : ℚ) : ℝ) := by
      simpa using h4
    exact_mod_cast this

/-- C7: over exact arithmetic, for every `c = (cr, ci)` and every `maxIterations ≥ 0`,
`calculateMandelbrotIterations(cr, ci)` returns the least `k` in `[0, maxIterations]`
such that `k = maxIterations` or `|z_k|^2 ≥ 4`, where `z_0 = 0` and
`z_{k+1} = z_k ^ 2 + c` in the complex numbers. -/
theorem calculateMandelbrotIterations_exact_least (cr ci : ℚ) (maxIterations : Int)
    (hmax : 0 ≤ maxIterations) :
    ∃ k : Nat,
      calculateMandelbrotIterations exactArith maxIterations cr ci = (k : Int) ∧
      (k : Int) ≤ maxIterations ∧
      ((k : Int) = maxIterations ∨
        4 ≤ Complex.normSq ((fun z : ℂ => z ^ 2 + ((cr : ℂ) + (ci : ℂ) * Complex.I))^[k] 0)) ∧
      ∀ j : Nat, j < k →
        ¬ ((j : Int) = maxIterations ∨
          4 ≤ Complex.normSq
            ((fun z : ℂ => z ^ 2 + ((cr : ℂ) + (ci : ℂ) * Complex.I))^[j] 0)) := by
  obtain ⟨k, _, hk, hle, hstop, hmin⟩ :=
    escapeLoop_least exactArith maxIterations cr ci maxIterations.toNat 0
      (by simp [Int.toNat_of_nonneg hmax])
  refine ⟨k, ?_, hle, ?_, ?_⟩
  · unfold calculateMandelbrotIterations
    simpa [orbit] using hk
  · rw [← orbit_exact_eq_complex, ← insideBound_exact_eq_false]
    exact hstop
  · intro j hj
    rw [← orbit_exact_eq_complex, ← insideBound_exact_eq_false]
    exact hmin j (Nat.zero_le j) hj

/-- Witness of C7: the point `c = (-2, 0)` with cap 1000. -/
theorem calculateMandelbrotIterations_exact_least_witness :
    ∃ k : Nat,
      calculateMandelbrotIterations exactArith 1000 (-2) 0 = (k : Int) ∧
      (k : Int) ≤ 1000 ∧
      ((k : Int) = 1000 ∨
        4 ≤ Complex.normSq
          ((fun z : ℂ => z ^ 2 + (((-2 : ℚ) : ℂ) + ((0 : ℚ) : ℂ) * Complex.I))^[k] 0)) ∧
      ∀ j : Nat, j < k →
        ¬ ((j : Int) = 1000 ∨
          4 ≤ Complex.normSq
            ((fun z : ℂ => z ^ 2 + (((-2 : ℚ) : ℂ) + ((0 : ℚ) : ℂ) * Complex.I))^[j] 0)) :=
  calculateMandelbrotIterations_exact_least (-2) 0 1000 (by decide)
/-! ## Colours: facts -/

/-- A value of `[0, 256)` is unchanged by the conversion to `unsigned char`. -/
theorem toUChar_of_lt {v : Int} (h0 : 0 ≤ v) (h : v < 256) : toUChar v = v := by
  unfold toUChar
  omega

/-- C9: for every `maxIterations`, the colour assigned to a pixel whose iteration count
equals `maxIterations` is `(0, 0, 0)`. -/
theorem colorOf_cap_black (maxIterations : Int) :
    colorOf maxIterations maxIterations = (0, 0, 0) := by
  unfold colorOf
  rw [if_pos rfl]
  rfl

/-- A value of the 32-bit range is its own 32-bit reduction. -/
theorem wrapInt32_of_range {v : Int} (h0 : -2147483648 ≤ v) (h1 : v ≤ 2147483647) :
    wrapInt32 v = v := by
  unfold wrapInt32
  omega

/-- For `0 ≤ n ≤ 42949672` the three products fit a 32-bit `int` and the colour is given
by the three remainders modulo 255. -/
theorem generateUniqueColor_of_small {n : Int} (h : 0 ≤ n) (hb : n ≤ 42949672) :
    generateUniqueColor n = (n * 50 % 255, n * 30 % 255, n * 20 % 255) := by
  have wr : wrapInt32 (n * 50) = n * 50 := wrapInt32_of_range (by omega) (by omega)
  have wg : wrapInt32 (n * 30) = n * 30 := wrapInt32_of_range (by omega) (by omega)
  have wb : wrapInt32 (n * 20) = n * 20 := wrapInt32_of_range (by omega) (by omega)
  have hr : Int.tmod (n * 50) 255 = n * 50 % 255 := Int.tmod_eq_emod (by omega) (by decide)
  have hg : Int.tmod (n * 30) 255 = n * 30 % 255 := Int.tmod_eq_emod (by omega) (by decide)
  have hb : Int.tmod (n * 20) 255 = n * 20 % 255 := Int.tmod_eq_emod (by omega) (by decide)
  unfold generateUniqueColor
  simp only [wr, wg, wb, hr, hg, hb]
  rw [toUChar_of_lt (by omega) (by omega), toUChar_of_lt (by omega) (by omega),
    toUChar_of_lt (by omega) (by omega)]

/-- C10, as stated, fails: at the count `n = 85899346` under the cap 85899347 the
product `n * 50 = 4294967300 = 2^32 + 4` does not fit a 32-bit `int`; the machine product
is 4 and the colour stored is `(4, 105, 155)`, while
`((n*50) mod 255, (n*30) mod 255, (n*20) mod 255) = (5, 105, 155)`. -/
theorem colorOf_large_count_wraps :
    (0 : Int) ≤ 85899346 ∧ (85899346 : Int) < 85899347 ∧
    wrapInt32 (85899346 * 50) = 4 ∧
    colorOf 85899346 85899347 = (4, 105, 155) ∧
    ((85899346 : Int) * 50 % 255, (85899346 : Int) * 30 % 255, (85899346 : Int) * 20 % 255)
      = (5, 105, 155) ∧
    colorOf 85899346 85899347
      ≠ ((85899346 : Int) * 50 % 255, (85899346 : Int) * 30 % 255,
          (85899346 : Int) * 20 % 255) := by
  decide

/-- C10, amended: for every iteration count `n` with `0 ≤ n < maxIterations` and
`n ≤ 42949672` (so that `n * 50` fits a 32-bit `int`), the colour assigned is exactly
`((n*50) mod 255, (n*30) mod 255, (n*20) mod 255)`, each channel passing through the
conversion to `unsigned char` unchanged; in particular
`colorOf(5, 1000) = (250, 150, 100)` and `colorOf(7, 1000) = (95, 210, 140)`. -/
theorem colorOf_below_cap (n maxIterations : Int) (h0 : 0 ≤ n) (hlt : n < maxIterations)
    (hfit : n ≤ 42949672) :
    colorOf n maxIterations = (n * 50 % 255, n * 30 % 255, n * 20 % 255) ∧
    (toUChar (Int.tmod (wrapInt32 (n * 50)) 255) = n * 50 % 255 ∧
     toUChar (Int.tmod (wrapInt32 (n * 30)) 255) = n * 30 % 255 ∧
     toUChar (Int.tmod (wrapInt32 (n * 20)) 255) = n * 20 % 255) ∧
    (Int.tmod (wrapInt32 (n * 50)) 255 = n * 50 % 255 ∧
     Int.tmod (wrapInt32 (n * 30)) 255 = n * 30 % 255 ∧
     Int.tmod (wrapInt32 (n * 20)) 255 = n * 20 % 255) ∧
    colorOf 5 1000 = (250, 150, 100) ∧ colorOf 7 1000 = (95, 210, 140) := by
  have wr : wrapInt32 (n * 50) = n * 50 := wrapInt32_of_range (by omega) (by omega)
  have wg : wrapInt32 (n * 30) = n * 30 := wrapInt32_of_range (by omega) (by omega)
  have wb : wrapInt32 (n * 20) = n * 20 := wrapInt32_of_range (by omega) (by omega)
  have hr : Int.tmod (n * 50) 255 = n * 50 % 255 :=
    Int.tmod_eq_emod (by omega) (by decide)
  have hg : Int.tmod (n * 30) 255 = n * 30 % 255 :=
    Int.tmod_eq_emod (by omega) (by decide)
  have hb : Int.tmod (n * 20) 255 = n * 20 % 255 :=
    Int.tmod_eq_emod (by omega) (by decide)
  have ur : toUChar (n * 50 % 255) = n * 50 % 255 := toUChar_of_lt (by omega) (by omega)
  have ug : toUChar (n * 30 % 255) = n * 30 % 255 := toUChar_of_lt (by omega) (by omega)
  have ub : toUChar (n * 20 % 255) = n * 20 % 255 := toUChar_of_lt (by omega) (by omega)
  refine ⟨?_, ⟨by rw [wr, hr, ur], by rw [wg, hg, ug], by rw [wb, hb, ub]⟩,
    ⟨by rw [wr, hr], by rw [wg, hg], by rw [wb, hb]⟩, by decide, by decide⟩
  unfold colorOf
  rw [if_neg (by omega)]
  exact generateUniqueColor_of_small h0 hfit

/-- Witness of the amended C10 at `n = 7`, `maxIterations = 1000`. -/
theorem colorOf_below_cap_witness :
    colorOf 7 1000 = (7 * 50 % 255, 7 * 30 % 255, 7 * 20 % 255) ∧
    (toUChar (Int.tmod (wrapInt32 (7 * 50)) 255) = 7 * 50 % 255 ∧
     toUChar (Int.tmod (wrapInt32 (7 * 30)) 255) = 7 * 30 % 255 ∧
     toUChar (Int.tmod (wrapInt32 (7 * 20)) 255) = 7 * 20 % 255) ∧
    (Int.tmod (wrapInt32 (7 * 50)) 255 = 7 * 50 % 255 ∧
     Int.tmod (wrapInt32 (7 * 30)) 255 = 7 * 30 % 255 ∧
     Int.tmod (wrapInt32 (7 * 20)) 255 = 7 * 20 % 255) ∧
    colorOf 5 1000 = (250, 150, 100) ∧ colorOf 7 1000 = (95, 210, 140) :=
  colorOf_below_cap 7 1000 (by decide) (by decide) (by decide)

/-! ## The pixel loop: facts -/

/-- The inner `for` loop unfolded by one pass. -/
theorem columnLoop_unfold {α : Type} (A : Arith α) (R : MandelbrotRenderer α) (y x : Int)
    (data : Buffer) :
    columnLoop A R y x data =
      if x < R.imageWidth then
        columnLoop A R y (x + 1) (setAt R.imageWidth data y x (pixelColor A R x y))
      else data := by
  rw [columnLoop]
  simp only [dite_eq_ite]

/-- The outer `for` loop unfolded by one pass. -/
theorem rowLoop_unfold {α : Type} (A : Arith α) (R : MandelbrotRenderer α) (e y : Int)
    (data : Buffer) :
    rowLoop A R e y data =
      if y < e then rowLoop A R e (y + 1) (columnLoop A R y 0 data) else data := by
  rw [rowLoop]
  simp only [dite_eq_ite]

/-- Outside the three bytes of pixel `(y, x)`, `setAt` leaves the buffer as it was. -/
theorem setAt_other (w : Int) (data : Buffer) (y x : Int) (p : Vec3b) (i : Int)
    (h : i < (y * w + x) * 3 ∨ (y * w + x) * 3 + 3 ≤ i) :
    setAt w data y x p i = data i := by
  unfold setAt
  rw [if_neg (by omega), if_neg (by omega), if_neg (by omega)]

/-- The byte at offset `c` of pixel `(y, x)` after `setAt` is channel `c` of the colour. -/
theorem setAt_same (w : Int) (data : Buffer) (y x : Int) (p : Vec3b) (c : Int)
    (h0 : 0 ≤ c) (h3 : c < 3) :
    setAt w data y x p ((y * w + x) * 3 + c) = channel p c := by
  unfold setAt channel
  by_cases hc0 : c = 0
  · subst hc0
    simp
  · by_cases hc1 : c = 1
    · subst hc1
      simp
    · have hc2 : c = 2 := by omega
      subst hc2
      simp

/-- The inner loop for row `y` from column `x0` writes only bytes of the pixels
`(y, x0), ..., (y, imageWidth - 1)`. -/
theorem columnLoop_frame {α : Type} (A : Arith α) (R : MandelbrotRenderer α) (y : Int) :
    ∀ (d : Nat) (x0 : Int) (data : Buffer) (i : Int),
      R.imageWidth - x0 ≤ d →
      (i < (y * R.imageWidth + x0) * 3 ∨ (y * R.imageWidth + R.imageWidth) * 3 ≤ i) →
      columnLoop A R y x0 data i = data i := by
  intro d
  induction d with
  | zero =>
    intro x0 data i hd _
    rw [columnLoop_unfold, if_neg (by omega)]
  | succ d ih =>
    intro x0 data i hd hi
    rw [columnLoop_unfold]
    split
    · rw [ih (x0 + 1) _ i (by push_cast at hd; omega) (by omega)]
      exact setAt_other _ _ _ _ _ _ (by omega)
    · rfl

/-- The inner loop for row `y` from column `x0` leaves in every pixel `(y, x)` with
`x0 ≤ x < imageWidth` the colour `pixelColor x y`. -/
theorem columnLoop_value {α : Type} (A : Arith α) (R : MandelbrotRenderer α) (y : Int) :
    ∀ (d : Nat) (x0 : Int) (data : Buffer) (x c : Int),
      R.imageWidth - x0 ≤ d → x0 ≤ x → x < R.imageWidth → 0 ≤ c → c < 3 →
      columnLoop A R y x0 data ((y * R.imageWidth + x) * 3 + c)
        = channel (pixelColor A R x y) c := by
  intro d
  induction d with
  | zero =>
    intro x0 data x c hd hx0 hxw _ _
    omega
  | succ d ih =>
    intro x0 data x c hd hx0 hxw hc0 hc3
    rw [columnLoop_unfold, if_pos (by omega)]
    rcases eq_or_lt_of_le hx0 with heq | hlt
    · subst heq
      rw [columnLoop_frame A R y d (x0 + 1) _ _ (by push_cast at hd; omega) (by omega)]
      exact setAt_same _ _ _ _ _ _ hc0 hc3
    · exact ih (x0 + 1) _ x c (by push_cast at hd; omega) (by omega) hxw hc0 hc3

/-- The outer loop over the rows `[y0, e)` writes only bytes of these rows. -/
theorem rowLoop_frame {α : Type} (A : Arith α) (R : MandelbrotRenderer α) (e : Int)
    (hw : 0 ≤ R.imageWidth) :
    ∀ (d : Nat) (y0 : Int) (data : Buffer) (i : Int),
      e - y0 ≤ d →
      (i < y0 * R.imageWidth * 3 ∨ e * R.imageWidth * 3 ≤ i) →
      rowLoop A R e y0 data i = data i := by
  intro d
  induction d with
  | zero =>
    intro y0 data i hd _
    rw [rowLoop_unfold, if_neg (by omega)]
  | succ d ih =>
    intro y0 data i hd hi
    rw [rowLoop_unfold]
    split
    · rename_i hlt
      have h1 : (y0 + 1) * R.imageWidth = y0 * R.imageWidth + R.imageWidth := by ring
      have h2 : (y0 + 1) * R.imageWidth ≤ e * R.imageWidth :=
        Int.mul_le_mul_of_nonneg_right (by omega) hw
      rw [ih (y0 + 1) _ i (by push_cast at hd; omega) (by omega)]
      exact columnLoop_frame A R y0 R.imageWidth.toNat 0 data i (by omega) (by omega)
    · rfl

/-- The outer loop over the rows `[y0, e)` leaves in every pixel `(y, x)` with
`y0 ≤ y < e` and `0 ≤ x < imageWidth` the colour `pixelColor x y`. -/
theorem rowLoop_value {α : Type} (A : Arith α) (R : MandelbrotRenderer α) (e : Int) :
    ∀ (d : Nat) (y0 : Int) (data : Buffer) (y x c : Int),
      e - y0 ≤ d → y0 ≤ y → y < e → 0 ≤ x → x < R.imageWidth → 0 ≤ c → c < 3 →
      rowLoop A R e y0 data ((y * R.imageWidth + x) * 3 + c)
        = channel (pixelColor A R x y) c := by
  intro d
  induction d with
  | zero =>
    intro y0 data y x c hd hy0 hye _ _ _ _
    omega
  | succ d ih =>
    intro y0 data y x c hd hy0 hye hx0 hxw hc0 hc3
    rw [rowLoop_unfold, if_pos (by omega)]
    rcases eq_or_lt_of_le hy0 with heq | hlt
    · subst heq
      have h1 : (y0 + 1) * R.imageWidth = y0 * R.imageWidth + R.imageWidth := by ring
      rw [rowLoop_frame A R e (by omega) d (y0 + 1) _ _ (by push_cast at hd; omega)
        (Or.inl (by omega))]
      exact columnLoop_value A R y0 R.imageWidth.toNat 0 data x c (by omega) hx0 hxw hc0 hc3
    · exact ih (y0 + 1) _ y x c (by push_cast at hd; omega) (by omega) hye hx0 hxw hc0 hc3
/-! ## One process: facts -/

/-- A process leaves every byte outside its rows `[startRow, endRow)` as it found it. -/
theorem localImage_frame {α : Type} (A : Arith α) (R : MandelbrotRenderer α)
    (numProcesses processRank : Int) (data : Buffer) (i : Int) (hw : 0 ≤ R.imageWidth)
    (hi : i < startRow R.imageHeight numProcesses processRank * R.imageWidth * 3 ∨
      endRow R.imageHeight numProcesses processRank * R.imageWidth * 3 ≤ i) :
    localImage A R numProcesses processRank data i = data i := by
  unfold localImage
  exact rowLoop_frame A R _ hw
    (endRow R.imageHeight numProcesses processRank
      - startRow R.imageHeight numProcesses processRank).toNat _ data i (by omega) hi

/-- A process leaves in every pixel of its rows `[startRow, endRow)` the colour
`pixelColor x y`, at the position of row `y` in the full-size matrix. -/
theorem localImage_value {α : Type} (A : Arith α) (R : MandelbrotRenderer α)
    (numProcesses processRank : Int) (data : Buffer) (y x c : Int)
    (hy0 : startRow R.imageHeight numProcesses processRank ≤ y)
    (hy1 : y < endRow R.imageHeight numProcesses processRank)
    (hx0 : 0 ≤ x) (hx1 : x < R.imageWidth) (hc0 : 0 ≤ c) (hc3 : c < 3) :
    localImage A R numProcesses processRank data ((y * R.imageWidth + x) * 3 + c)
      = channel (pixelColor A R x y) c := by
  unfold localImage
  exact rowLoop_value A R _
    (endRow R.imageHeight numProcesses processRank
      - startRow R.imageHeight numProcesses processRank).toNat _ data y x c (by omega)
    hy0 hy1 hx0 hx1 hc0 hc3

/-- Reading a pixel that the process has computed. -/
theorem getAt_localImage {α : Type} (A : Arith α) (R : MandelbrotRenderer α)
    (numProcesses processRank : Int) (data : Buffer) (y x : Int)
    (hy0 : startRow R.imageHeight numProcesses processRank ≤ y)
    (hy1 : y < endRow R.imageHeight numProcesses processRank)
    (hx0 : 0 ≤ x) (hx1 : x < R.imageWidth) :
    getAt R.imageWidth (localImage A R numProcesses processRank data) y x
      = pixelColor A R x y := by
  have h0 := localImage_value A R numProcesses processRank data y x 0 hy0 hy1 hx0 hx1
    (by decide) (by decide)
  have h1 := localImage_value A R numProcesses processRank data y x 1 hy0 hy1 hx0 hx1
    (by decide) (by decide)
  have h2 := localImage_value A R numProcesses processRank data y x 2 hy0 hy1 hx0 hx1
    (by decide) (by decide)
  rw [add_zero] at h0
  unfold getAt
  rw [h0, h1, h2]
  rfl

/-- Over exact arithmetic the point `c = (-2, 0)` leaves the bound after one step. -/
theorem escape_minus_two (maxIterations : Int) (h : 1 ≤ maxIterations) :
    calculateMandelbrotIterations exactArith maxIterations (-2) 0 = 1 := by
  unfold calculateMandelbrotIterations
  rw [escapeLoop_unfold, if_pos ⟨by omega, by simp [exactArith]⟩]
  rw [escapeLoop_unfold, if_neg]
  · rfl
  · rintro ⟨_, h2⟩
    revert h2
    simp only [exactArith]
    norm_num

/-- In the window of `main`, the pixel of column 0 in the middle row of an image of even
height maps to `c = (-2, 0)` and is coloured `(50, 30, 20)`. -/
theorem pixelColor_left_middle (width half : Int) (hh : 1 ≤ half) :
    pixelColor exactArith (windowRenderer width (2 * half)) 0 half = (50, 30, 20) := by
  have hx : planeX exactArith (windowRenderer width (2 * half)) 0 = -2 := by
    simp [planeX, exactArith, windowRenderer]
  have hy : planeY exactArith (windowRenderer width (2 * half)) half = 0 := by
    have h2 : (half : ℚ) ≠ 0 := by
      have : (0 : ℚ) < half := by exact_mod_cast (show (0 : Int) < half by omega)
      exact ne_of_gt this
    simp only [planeY, exactArith, windowRenderer]
    push_cast
    field_simp
    ring
  unfold pixelColor
  rw [hx, hy]
  have : (windowRenderer width (2 * half)).maxIterations = 1000 := rfl
  rw [this, escape_minus_two 1000 (by decide)]
  decide
/-! ## The gather: facts -/

/-- Bytes of the block of rank `r` in the receive buffer come from the start of the send
buffer of rank `r`. -/
theorem gatherAsCalled_block {α : Type} (A : Arith α) (R : MandelbrotRenderer α)
    (numProcesses : Int) (mem : Memory) (r j : Int)
    (hr0 : 0 ≤ r) (hrW : r < numProcesses) (hj0 : 0 ≤ j) (hj : j < gatherCount R numProcesses) :
    gatherAsCalled A R numProcesses mem (r * gatherCount R numProcesses + j)
      = localImage A R numProcesses r (mem.fractalImage r) j := by
  have hc : 0 < gatherCount R numProcesses := by omega
  have h1 : 0 ≤ r * gatherCount R numProcesses := Int.mul_nonneg hr0 (by omega)
  have h2 : (r + 1) * gatherCount R numProcesses ≤ numProcesses * gatherCount R numProcesses :=
    Int.mul_le_mul_of_nonneg_right (by omega) (by omega)
  have h3 : (r + 1) * gatherCount R numProcesses
      = r * gatherCount R numProcesses + gatherCount R numProcesses := by ring
  have hdiv : (r * gatherCount R numProcesses + j) / gatherCount R numProcesses = r := by
    rw [Int.add_comm, Int.add_mul_ediv_right _ _ (by omega), Int.ediv_eq_zero_of_lt hj0 hj]
    simp
  have hmod : (r * gatherCount R numProcesses + j) % gatherCount R numProcesses = j := by
    rw [Int.add_comm, Int.add_mul_emod_self, Int.emod_eq_of_lt hj0 hj]
  unfold gatherAsCalled mpiGather
  rw [if_pos ⟨by omega, by omega⟩, hdiv, hmod]

/-- Bytes past the last block of the receive buffer are not written by the gather. -/
theorem gatherAsCalled_beyond {α : Type} (A : Arith α) (R : MandelbrotRenderer α)
    (numProcesses : Int) (mem : Memory) (i : Int)
    (hi : numProcesses * gatherCount R numProcesses ≤ i) :
    gatherAsCalled A R numProcesses mem i = mem.finalImage i := by
  unfold gatherAsCalled mpiGather
  rw [if_neg (by omega)]

/-- Offset of a byte of row `r * rowsPerProcess + yl` in the receive buffer, split into
the block of rank `r` and the offset inside the block. -/
theorem gather_offset_split {α : Type} (R : MandelbrotRenderer α) (numProcesses : Int)
    (r yl x c : Int)
    (hcnt : gatherCount R numProcesses
      = R.imageWidth * rowsPerProcess R.imageHeight numProcesses * 3) :
    ((r * rowsPerProcess R.imageHeight numProcesses + yl) * R.imageWidth + x) * 3 + c
      = r * gatherCount R numProcesses + ((yl * R.imageWidth + x) * 3 + c) := by
  rw [hcnt]
  ring

/-- A byte of a pixel `(yl, x)` with `0 ≤ yl < rowsPerProcess`, `0 ≤ x < imageWidth` lies
inside the first `gatherCount` bytes. -/
theorem offset_lt_gatherCount {α : Type} (R : MandelbrotRenderer α) (numProcesses : Int)
    (yl x c : Int) (hyl : yl < rowsPerProcess R.imageHeight numProcesses)
    (hx0 : 0 ≤ x) (hx1 : x < R.imageWidth) (hc3 : c < 3)
    (hcnt : gatherCount R numProcesses
      = R.imageWidth * rowsPerProcess R.imageHeight numProcesses * 3) :
    (yl * R.imageWidth + x) * 3 + c < gatherCount R numProcesses := by
  have h1 : (yl + 1) * R.imageWidth
      ≤ rowsPerProcess R.imageHeight numProcesses * R.imageWidth :=
    Int.mul_le_mul_of_nonneg_right (by omega) (by omega)
  have h2 : (yl + 1) * R.imageWidth = yl * R.imageWidth + R.imageWidth := by ring
  have h3 : gatherCount R numProcesses
      = rowsPerProcess R.imageHeight numProcesses * R.imageWidth * 3 := by
    rw [hcnt]
    ring
  omega

/-- The gather as called stores, in the rows of the block of a rank `r ≥ 1`, the first
rows of that rank's buffer: rows the rank has not computed, holding whatever the buffer
held before. -/
theorem gatherAsCalled_later_rank {α : Type} (A : Arith α) (R : MandelbrotRenderer α)
    (numProcesses : Int) (mem : Memory) (r yl x : Int)
    (hr1 : 1 ≤ r) (hrW : r < numProcesses)
    (hyl0 : 0 ≤ yl) (hyl : yl < rowsPerProcess R.imageHeight numProcesses)
    (hx0 : 0 ≤ x) (hx1 : x < R.imageWidth)
    (hcnt : gatherCount R numProcesses
      = R.imageWidth * rowsPerProcess R.imageHeight numProcesses * 3) :
    getAt R.imageWidth (gatherAsCalled A R numProcesses mem)
        (r * rowsPerProcess R.imageHeight numProcesses + yl) x
      = getAt R.imageWidth (mem.fractalImage r) yl x := by
  have hyw : 0 ≤ yl * R.imageWidth := Int.mul_nonneg hyl0 (by omega)
  have hstart : rowsPerProcess R.imageHeight numProcesses * R.imageWidth
      ≤ startRow R.imageHeight numProcesses r * R.imageWidth := by
    unfold startRow
    have : 1 * rowsPerProcess R.imageHeight numProcesses
        ≤ r * rowsPerProcess R.imageHeight numProcesses :=
      Int.mul_le_mul_of_nonneg_right hr1 (by omega)
    exact Int.mul_le_mul_of_nonneg_right (by omega) (by omega)
  have hcnt2 : gatherCount R numProcesses
      = rowsPerProcess R.imageHeight numProcesses * R.imageWidth * 3 := by
    rw [hcnt]
    ring
  have key : ∀ c : Int, 0 ≤ c → c < 3 →
      gatherAsCalled A R numProcesses mem
        (((r * rowsPerProcess R.imageHeight numProcesses + yl) * R.imageWidth + x) * 3 + c)
        = mem.fractalImage r ((yl * R.imageWidth + x) * 3 + c) := by
    intro c hc0 hc3
    have hlt := offset_lt_gatherCount R numProcesses yl x c hyl hx0 hx1 hc3 hcnt
    rw [gather_offset_split R numProcesses r yl x c hcnt,
      gatherAsCalled_block A R numProcesses mem r _ (by omega) hrW (by omega) hlt]
    exact localImage_frame A R numProcesses r _ _ (by omega) (Or.inl (by omega))
  have k0 := key 0 (by decide) (by decide)
  have k1 := key 1 (by decide) (by decide)
  have k2 := key 2 (by decide) (by decide)
  rw [add_zero] at k0
  rw [add_zero] at k0
  unfold getAt
  rw [k0, k1, k2]

/-- The gather as called stores the rows `[0, rowsPerProcess)`, computed by rank 0, at
their place. -/
theorem gatherAsCalled_rank_zero {α : Type} (A : Arith α) (R : MandelbrotRenderer α)
    (numProcesses : Int) (mem : Memory) (y x : Int) (hW : 1 ≤ numProcesses)
    (hy0 : 0 ≤ y) (hy : y < rowsPerProcess R.imageHeight numProcesses)
    (hx0 : 0 ≤ x) (hx1 : x < R.imageWidth)
    (hcnt : gatherCount R numProcesses
      = R.imageWidth * rowsPerProcess R.imageHeight numProcesses * 3) :
    getAt R.imageWidth (gatherAsCalled A R numProcesses mem) y x = pixelColor A R x y := by
  have hyw : 0 ≤ y * R.imageWidth := Int.mul_nonneg hy0 (by omega)
  have hend : y < endRow R.imageHeight numProcesses 0 := by
    unfold endRow startRow
    split
    · rename_i h1
      have hW1 : numProcesses = 1 := by omega
      rw [hW1] at hy
      unfold rowsPerProcess at hy
      rw [Int.tdiv_one] at hy
      exact hy
    · omega
  have hst : startRow R.imageHeight numProcesses 0 ≤ y := by
    unfold startRow
    omega
  have key : ∀ c : Int, 0 ≤ c → c < 3 →
      gatherAsCalled A R numProcesses mem ((y * R.imageWidth + x) * 3 + c)
        = channel (pixelColor A R x y) c := by
    intro c hc0 hc3
    have hlt := offset_lt_gatherCount R numProcesses y x c hy hx0 hx1 hc3 hcnt
    have h0 : (y * R.imageWidth + x) * 3 + c
        = 0 * gatherCount R numProcesses + ((y * R.imageWidth + x) * 3 + c) := by ring
    rw [h0, gatherAsCalled_block A R numProcesses mem 0 _ (by omega) (by omega) (by omega) hlt]
    exact localImage_value A R numProcesses 0 _ y x c hst hend hx0 hx1 hc0 hc3
  have k0 := key 0 (by decide) (by decide)
  have k1 := key 1 (by decide) (by decide)
  have k2 := key 2 (by decide) (by decide)
  rw [add_zero] at k0
  unfold getAt
  rw [k0, k1, k2]
  rfl
/-! ## Running `render` on `numProcesses` processes: facts -/

/-- Only rank 0 reaches the `MPI_Gather` call. -/
theorem callsGather_iff (processRank : Int) :
    callsGather processRank = true ↔ processRank = 0 := by
  simp [callsGather]

/-- With two or more processes, rank 1 exists and does not call the gather, so the
collective never completes on rank 0. -/
theorem render_eq_none_of_two_le {α : Type} (A : Arith α) (R : MandelbrotRenderer α)
    (numProcesses : Int) (mem : Memory) (hW : 2 ≤ numProcesses) :
    render A R numProcesses mem = none := by
  have hmem : (1 : Int) ∈ ranks numProcesses := by
    unfold ranks
    rw [List.mem_map]
    exact ⟨1, List.mem_range.mpr (by omega), rfl⟩
  have hall : (ranks numProcesses).all callsGather = false := by
    rw [List.all_eq_false]
    exact ⟨1, hmem, by simp [callsGather]⟩
  unfold render
  rw [if_neg]
  intro hc
  rw [hall] at hc
  exact Bool.noConfusion hc.1

/-- With one process the gather completes, the count being one that `MPI_Gather`
accepts. -/
theorem render_one {α : Type} (A : Arith α) (R : MandelbrotRenderer α) (mem : Memory)
    (hcount : 0 ≤ gatherCount R 1) :
    render A R 1 mem = some (gatherAsCalled A R 1 mem) := by
  have hall : (ranks 1).all callsGather = true := by decide
  unfold render
  rw [if_pos ⟨hall, hcount⟩]

/-- A negative count is refused by `MPI_Gather`: no final image. -/
theorem render_eq_none_of_count_neg {α : Type} (A : Arith α) (R : MandelbrotRenderer α)
    (numProcesses : Int) (mem : Memory) (hcount : gatherCount R numProcesses < 0) :
    render A R numProcesses mem = none := by
  unfold render
  rw [if_neg]
  intro hc
  omega

/-- When `imageWidth * rowsPerProcess * 3` fits a 32-bit `int`, the count passed to the
gather is that number. -/
theorem gatherCount_of_fits {α : Type} (R : MandelbrotRenderer α) (numProcesses : Int)
    (h0 : 0 ≤ R.imageWidth * rowsPerProcess R.imageHeight numProcesses)
    (h1 : R.imageWidth * rowsPerProcess R.imageHeight numProcesses * 3 ≤ 2147483647) :
    gatherCount R numProcesses
      = R.imageWidth * rowsPerProcess R.imageHeight numProcesses * 3 := by
  have hin : wrapInt32 (R.imageWidth * rowsPerProcess R.imageHeight numProcesses)
      = R.imageWidth * rowsPerProcess R.imageHeight numProcesses :=
    wrapInt32_of_range (by omega) (by omega)
  unfold gatherCount
  rw [hin]
  exact wrapInt32_of_range (by omega) (by omega)

/-- C2 (code defect), at the reference configuration (800 x 800) on 2 processes: row 400
is assigned to rank 1, which computes the pixel `(50, 30, 20)` at `(0, 400)`; rank 0 gets
no final buffer at all (rank 1 never calls the gather), and the gather with the arguments
as written would fill row 400 of the final buffer from row 0 of rank 1's buffer, a row
rank 1 has not computed. -/
theorem gather_row_differs_from_computed_row :
    (startRow 800 2 1 ≤ 400 ∧ 400 < endRow 800 2 1) ∧
    getAt 800 (localImage exactArith referenceRenderer 2 1 (zeroMemory.fractalImage 1)) 400 0
      = (50, 30, 20) ∧
    (∀ mem : Memory, render exactArith referenceRenderer 2 mem = none) ∧
    (∀ mem : Memory,
      getAt 800 (gatherAsCalled exactArith referenceRenderer 2 mem) 400 0
        = getAt 800 (mem.fractalImage 1) 0 0) ∧
    getAt 800 (gatherAsCalled exactArith referenceRenderer 2 zeroMemory) 400 0 = (0, 0, 0) := by
  have href : referenceRenderer = windowRenderer 800 (2 * 400) := rfl
  have hp : pixelColor exactArith referenceRenderer 0 400 = (50, 30, 20) := by
    rw [href]
    exact pixelColor_left_middle 800 400 (by decide)
  have hg : ∀ mem : Memory,
      getAt 800 (gatherAsCalled exactArith referenceRenderer 2 mem) 400 0
        = getAt 800 (mem.fractalImage 1) 0 0 := fun mem =>
    gatherAsCalled_later_rank exactArith referenceRenderer 2 mem 1 0 0
      (by decide) (by decide) (by decide) (by decide) (by decide) (by decide) (by decide)
  refine ⟨by decide, ?_, fun mem => render_eq_none_of_two_le _ _ 2 mem (by decide), hg, ?_⟩
  · rw [← hp]
    exact getAt_localImage exactArith referenceRenderer 2 1 _ 400 0
      (by decide) (by decide) (by decide) (by decide)
  · rw [hg]
    rfl

/-- C3 (code defect), at the reference configuration: with one process the final image
holds `(50, 30, 20)` at pixel `(0, 400)`; with 2 or with 7 processes rank 0 gets no final
image, and the gather with the arguments as written would put at `(0, 400)` bytes that
rank 1 (of 2), respectively rank 3 (of 7), has not computed. -/
theorem render_depends_on_worker_count :
    (∃ img, render exactArith referenceRenderer 1 zeroMemory = some img ∧
      getAt 800 img 400 0 = (50, 30, 20)) ∧
    (∀ mem : Memory, render exactArith referenceRenderer 2 mem = none) ∧
    (∀ mem : Memory, render exactArith referenceRenderer 7 mem = none) ∧
    getAt 800 (gatherAsCalled exactArith referenceRenderer 2 zeroMemory) 400 0 = (0, 0, 0) ∧
    getAt 800 (gatherAsCalled exactArith referenceRenderer 7 zeroMemory) 400 0 = (0, 0, 0) := by
  have href : referenceRenderer = windowRenderer 800 (2 * 400) := rfl
  have hp : pixelColor exactArith referenceRenderer 0 400 = (50, 30, 20) := by
    rw [href]
    exact pixelColor_left_middle 800 400 (by decide)
  refine ⟨⟨_, render_one _ _ _ (by decide), ?_⟩,
    fun mem => render_eq_none_of_two_le _ _ 2 mem (by decide),
    fun mem => render_eq_none_of_two_le _ _ 7 mem (by decide), ?_, ?_⟩
  · rw [← hp]
    exact gatherAsCalled_rank_zero exactArith referenceRenderer 1 zeroMemory 400 0
      (by decide) (by decide) (by decide) (by decide) (by decide) (by decide)
  · exact gatherAsCalled_later_rank exactArith referenceRenderer 2 zeroMemory 1 0 0
      (by decide) (by decide) (by decide) (by decide) (by decide) (by decide) (by decide)
  · exact gatherAsCalled_later_rank exactArith referenceRenderer 7 zeroMemory 3 58 0
      (by decide) (by decide) (by decide) (by decide) (by decide) (by decide) (by decide)

/-- C4 (code defect), at the reference configuration (800 x 800, 1000 iterations) on 4
processes, 200 rows each: with one process the final image holds `(50, 30, 20)` at pixel
`(0, 400)`; with four processes rank 0 gets no final image, and the gather with the
arguments as written would fill row 400 from row 0 of rank 2's buffer, which rank 2 has
not computed. -/
theorem reference_four_workers_differ :
    rowsPerProcess 800 4 = 200 ∧ 4 * rowsPerProcess 800 4 = 800 ∧
    (∃ img, render exactArith referenceRenderer 1 zeroMemory = some img ∧
      getAt 800 img 400 0 = (50, 30, 20)) ∧
    (∀ mem : Memory, render exactArith referenceRenderer 4 mem = none) ∧
    (∀ mem : Memory,
      getAt 800 (gatherAsCalled exactArith referenceRenderer 4 mem) 400 0
        = getAt 800 (mem.fractalImage 2) 0 0) ∧
    getAt 800 (gatherAsCalled exactArith referenceRenderer 4 zeroMemory) 400 0 = (0, 0, 0) := by
  have href : referenceRenderer = windowRenderer 800 (2 * 400) := rfl
  have hp : pixelColor exactArith referenceRenderer 0 400 = (50, 30, 20) := by
    rw [href]
    exact pixelColor_left_middle 800 400 (by decide)
  have hg : ∀ mem : Memory,
      getAt 800 (gatherAsCalled exactArith referenceRenderer 4 mem) 400 0
        = getAt 800 (mem.fractalImage 2) 0 0 := fun mem =>
    gatherAsCalled_later_rank exactArith referenceRenderer 4 mem 2 0 0
      (by decide) (by decide) (by decide) (by decide) (by decide) (by decide) (by decide)
  refine ⟨by decide, by decide, ⟨_, render_one _ _ _ (by decide), ?_⟩,
    fun mem => render_eq_none_of_two_le _ _ 4 mem (by decide), hg, ?_⟩
  · rw [← hp]
    exact gatherAsCalled_rank_zero exactArith referenceRenderer 1 zeroMemory 400 0
      (by decide) (by decide) (by decide) (by decide) (by decide) (by decide)
  · rw [hg]
    rfl

/-- C5 (code defect), at a 1 x 10 image on 3 processes: the last rank is assigned 4 rows
but the gather takes `gatherCount`, that is 3 rows, from every rank, 9 rows in all; row 9
of the final buffer is never written (it keeps what the buffer held), and rank 0 gets no
final buffer at all since the other ranks never call the gather.  The same at the
reference configuration on 3 processes: 3 * 266 = 798 rows, rows 798 and 799 are never
written. -/
theorem gather_drops_remainder_row :
    endRow 10 3 2 - startRow 10 3 2 = 4 ∧
    gatherCount (windowRenderer 1 10) 3 = 3 * (windowRenderer 1 10).imageWidth * 3 ∧
    3 * gatherCount (windowRenderer 1 10) 3 = 9 * (windowRenderer 1 10).imageWidth * 3 ∧
    (∀ mem : Memory,
      getAt 1 (gatherAsCalled exactArith (windowRenderer 1 10) 3 mem) 9 0
        = getAt 1 mem.finalImage 9 0) ∧
    (∀ mem : Memory, render exactArith (windowRenderer 1 10) 3 mem = none) ∧
    3 * gatherCount referenceRenderer 3 = 798 * referenceRenderer.imageWidth * 3 ∧
    (∀ mem : Memory,
      getAt 800 (gatherAsCalled exactArith referenceRenderer 3 mem) 799 0
        = getAt 800 mem.finalImage 799 0) := by
  refine ⟨by decide, by decide, by decide, ?_,
    fun mem => render_eq_none_of_two_le _ _ 3 mem (by decide), by decide, ?_⟩
  · intro mem
    unfold getAt
    rw [gatherAsCalled_beyond _ _ _ _ _ (by decide),
      gatherAsCalled_beyond _ _ _ _ _ (by decide),
      gatherAsCalled_beyond _ _ _ _ _ (by decide)]
  · intro mem
    unfold getAt
    rw [gatherAsCalled_beyond _ _ _ _ _ (by decide),
      gatherAsCalled_beyond _ _ _ _ _ (by decide),
      gatherAsCalled_beyond _ _ _ _ _ (by decide)]

/-- C6 (code defect): on 2 processes, rank 1 does not execute the gather (only rank 0
does, for any number of processes), so the collective is entered by rank 0 alone and
rank 0 receives no final buffer. -/
theorem rank_one_skips_gather :
    (1 : Int) ∈ ranks 2 ∧ callsGather 1 = false ∧ callsGather 0 = true ∧
    (∀ r : Int, callsGather r = true ↔ r = 0) ∧
    (∀ mem : Memory, render exactArith referenceRenderer 2 mem = none) :=
  ⟨by decide, by decide, by decide, callsGather_iff,
    fun mem => render_eq_none_of_two_le _ _ 2 mem (by decide)⟩
/-! ## One process alone: facts -/

/-- With one process and an image whose byte size `imageWidth * imageHeight * 3` fits a
32-bit `int`, the count passed to the gather is that size. -/
theorem gatherCount_single {α : Type} (R : MandelbrotRenderer α)
    (hw : 0 ≤ R.imageWidth) (hh : 0 ≤ R.imageHeight)
    (hfit : R.imageWidth * R.imageHeight * 3 ≤ 2147483647) :
    gatherCount R 1 = R.imageWidth * rowsPerProcess R.imageHeight 1 * 3 ∧
    0 ≤ gatherCount R 1 := by
  have hrows : rowsPerProcess R.imageHeight 1 = R.imageHeight := by
    unfold rowsPerProcess
    exact Int.tdiv_one _
  have hprod : 0 ≤ R.imageWidth * R.imageHeight := Int.mul_nonneg hw hh
  have hcnt := gatherCount_of_fits R 1 (by rw [hrows]; exact hprod) (by rw [hrows]; exact hfit)
  refine ⟨hcnt, ?_⟩
  rw [hcnt, hrows]
  omega

/-- With one process and an image whose byte size fits a 32-bit `int`, every pixel of
the image is stored by the gather at its place. -/
theorem gatherAsCalled_single {α : Type} (A : Arith α) (R : MandelbrotRenderer α)
    (mem : Memory) (x y : Int) (hx0 : 0 ≤ x) (hx1 : x < R.imageWidth)
    (hy0 : 0 ≤ y) (hy1 : y < R.imageHeight)
    (hfit : R.imageWidth * R.imageHeight * 3 ≤ 2147483647) :
    getAt R.imageWidth (gatherAsCalled A R 1 mem) y x = pixelColor A R x y := by
  have hrows : rowsPerProcess R.imageHeight 1 = R.imageHeight := by
    unfold rowsPerProcess
    exact Int.tdiv_one _
  exact gatherAsCalled_rank_zero A R 1 mem y x (by decide) hy0 (by rw [hrows]; exact hy1)
    hx0 hx1 (gatherCount_single R (by omega) (by omega) hfit).1

/-- With a cap `maxIterations ≤ 0` the loop body is never entered: the count is 0. -/
theorem calculateMandelbrotIterations_of_cap_nonpos {α : Type} (A : Arith α)
    (maxIterations : Int) (cr ci : α) (h : maxIterations ≤ 0) :
    calculateMandelbrotIterations A maxIterations cr ci = 0 := by
  unfold calculateMandelbrotIterations
  rw [escapeLoop_unfold, if_neg (fun hc => by omega)]

/-- With a cap `maxIterations ≤ 0` every pixel is stored as `(0, 0, 0)`. -/
theorem pixelColor_of_cap_nonpos {α : Type} (A : Arith α) (R : MandelbrotRenderer α)
    (x y : Int) (h : R.maxIterations ≤ 0) : pixelColor A R x y = (0, 0, 0) := by
  unfold pixelColor
  rw [calculateMandelbrotIterations_of_cap_nonpos A _ _ _ h]
  unfold colorOf
  split
  · rfl
  · rfl

/-- C11, as stated, fails: the configuration of `main` with `maxIterations = 0`, run by
one process on memory filled with the byte 7, is not rejected; `render` runs to
completion and hands over a final image whose pixel `(0, 0)` has been computed and
stored as `(0, 0, 0)` over the `(7, 7, 7)` that the buffer held. -/
theorem zero_cap_render_completes :
    zeroCapRenderer.maxIterations ≤ 0 ∧
    getAt 800 (filledMemory 7).finalImage 0 0 = (7, 7, 7) ∧
    ∃ img, render exactArith zeroCapRenderer 1 (filledMemory 7) = some img ∧
      getAt 800 img 0 0 = (0, 0, 0) := by
  refine ⟨by decide, rfl, _, render_one _ _ _ (by decide), ?_⟩
  rw [← pixelColor_of_cap_nonpos exactArith zeroCapRenderer 0 0 (by decide)]
  exact gatherAsCalled_single exactArith zeroCapRenderer (filledMemory 7) 0 0
    (by decide) (by decide) (by decide) (by decide) (by decide)

/-- C11, amended: `render` makes no check of `maxIterations`; for every arithmetic, a
configuration with `maxIterations ≤ 0` and an image whose byte size
`imageWidth * imageHeight * 3` fits a 32-bit `int` (at most 2147483647), run by one
process, is not rejected: the run completes with a final image, and every pixel `(x, y)`
of the image (`0 ≤ x < imageWidth`, `0 ≤ y < imageHeight`) is stored as `(0, 0, 0)`. -/
theorem nonpositive_cap_render_completes {α : Type} (A : Arith α)
    (R : MandelbrotRenderer α) (mem : Memory) (x y : Int)
    (hcap : R.maxIterations ≤ 0) (hx0 : 0 ≤ x) (hx1 : x < R.imageWidth)
    (hy0 : 0 ≤ y) (hy1 : y < R.imageHeight)
    (hfit : R.imageWidth * R.imageHeight * 3 ≤ 2147483647) :
    ∃ img, render A R 1 mem = some img ∧ getAt R.imageWidth img y x = (0, 0, 0) := by
  refine ⟨_, render_one A R mem (gatherCount_single R (by omega) (by omega) hfit).2, ?_⟩
  rw [← pixelColor_of_cap_nonpos A R x y hcap]
  exact gatherAsCalled_single A R mem x y hx0 hx1 hy0 hy1 hfit

/-- Witness of the amended C11: cap 0 on the 800 x 800 image, pixel `(799, 799)`. -/
theorem nonpositive_cap_render_completes_witness :
    ∃ img, render exactArith zeroCapRenderer 1 zeroMemory = some img ∧
      getAt zeroCapRenderer.imageWidth img 799 799 = (0, 0, 0) :=
  nonpositive_cap_render_completes exactArith zeroCapRenderer zeroMemory 799 799
    (by decide) (by decide) (by decide) (by decide) (by decide) (by decide)
/-! ## The buffer of one process and the shape of the partition -/

/-- C12, as stated, fails: at the reference configuration on 2 processes, rank 1 is
assigned the rows `[400, 800)`, 400 rows, but its buffer is the full matrix of 800 rows,
and the pixel at local row `400 - 400 = 0`, column 0 is not the colour `(50, 30, 20)`
computed for `(x, y) = (0, 400)`: it is what the buffer held before (`(0, 0, 0)` on
zeroed memory); the computed colour is at row 400. -/
theorem local_buffer_is_full_size :
    (startRow 800 2 1 = 400 ∧ endRow 800 2 1 = 800) ∧
    fractalImageRows referenceRenderer ≠ endRow 800 2 1 - startRow 800 2 1 ∧
    pixelColor exactArith referenceRenderer 0 400 = (50, 30, 20) ∧
    (∀ data : Buffer,
      getAt 800 (localImage exactArith referenceRenderer 2 1 data) (400 - startRow 800 2 1) 0
        = getAt 800 data 0 0) ∧
    getAt 800 (localImage exactArith referenceRenderer 2 1 (zeroMemory.fractalImage 1))
        (400 - startRow 800 2 1) 0 ≠ pixelColor exactArith referenceRenderer 0 400 := by
  have href : referenceRenderer = windowRenderer 800 (2 * 400) := rfl
  have hp : pixelColor exactArith referenceRenderer 0 400 = (50, 30, 20) := by
    rw [href]
    exact pixelColor_left_middle 800 400 (by decide)
  have hrow : (400 : Int) - startRow 800 2 1 = 0 := by decide
  have hf : ∀ data : Buffer,
      getAt 800 (localImage exactArith referenceRenderer 2 1 data) (400 - startRow 800 2 1) 0
        = getAt 800 data 0 0 := by
    intro data
    rw [hrow]
    unfold getAt
    rw [localImage_frame exactArith referenceRenderer 2 1 data _ (by decide)
        (Or.inl (by decide)),
      localImage_frame exactArith referenceRenderer 2 1 data _ (by decide)
        (Or.inl (by decide)),
      localImage_frame exactArith referenceRenderer 2 1 data _ (by decide)
        (Or.inl (by decide))]
  refine ⟨by decide, by decide, hp, hf, ?_⟩
  rw [hf, hp]
  decide

/-- C12, amended: the buffer of every process is the full matrix of `imageHeight` rows
and `imageWidth` columns, whatever its assignment, and for every `x` in
`[0, imageWidth)` and `y` in `[startRow, endRow)` the pixel at row `y` (the row of the
full image), column `x` is `colorOf(iterate(cr, ci), maxIterations)` with
`cr = minX + (maxX-minX)*x/imageWidth` and `ci = minY + (maxY-minY)*y/imageHeight`. -/
theorem local_buffer_pixels {α : Type} (A : Arith α) (R : MandelbrotRenderer α)
    (numProcesses processRank : Int) (data : Buffer) (x y : Int)
    (hy0 : startRow R.imageHeight numProcesses processRank ≤ y)
    (hy1 : y < endRow R.imageHeight numProcesses processRank)
    (hx0 : 0 ≤ x) (hx1 : x < R.imageWidth) :
    fractalImageRows R = R.imageHeight ∧ fractalImageCols R = R.imageWidth ∧
    getAt R.imageWidth (localImage A R numProcesses processRank data) y x
      = colorOf
          (calculateMandelbrotIterations A R.maxIterations
            (A.add R.minX
              (A.div (A.mul (A.sub R.maxX R.minX) (A.ofInt x)) (A.ofInt R.imageWidth)))
            (A.add R.minY
              (A.div (A.mul (A.sub R.maxY R.minY) (A.ofInt y)) (A.ofInt R.imageHeight))))
          R.maxIterations :=
  ⟨rfl, rfl, getAt_localImage A R numProcesses processRank data y x hy0 hy1 hx0 hx1⟩

/-- Witness of the amended C12: rank 1 of 2 at the reference configuration, pixel
`(x, y) = (0, 400)`. -/
theorem local_buffer_pixels_witness :
    fractalImageRows referenceRenderer = referenceRenderer.imageHeight ∧
    fractalImageCols referenceRenderer = referenceRenderer.imageWidth ∧
    getAt referenceRenderer.imageWidth
        (localImage exactArith referenceRenderer 2 1 (zeroMemory.fractalImage 1)) 400 0
      = colorOf
          (calculateMandelbrotIterations exactArith referenceRenderer.maxIterations
            (exactArith.add referenceRenderer.minX
              (exactArith.div
                (exactArith.mul (exactArith.sub referenceRenderer.maxX referenceRenderer.minX)
                  (exactArith.ofInt 0))
                (exactArith.ofInt referenceRenderer.imageWidth)))
            (exactArith.add referenceRenderer.minY
              (exactArith.div
                (exactArith.mul (exactArith.sub referenceRenderer.maxY referenceRenderer.minY)
                  (exactArith.ofInt 400))
                (exactArith.ofInt referenceRenderer.imageHeight))))
          referenceRenderer.maxIterations :=
  local_buffer_pixels exactArith referenceRenderer 2 1 (zeroMemory.fractalImage 1) 0 400
    (by decide) (by decide) (by decide) (by decide)

/-- C13: for every `H` and `W ≥ 1`, every rank `i` except the last is assigned exactly
`H / W` rows (integer division of C++) starting at row `i * (H / W)`, and the last rank
`W - 1` starts at `(W - 1) * (H / W)`, ends at row `H` and so is assigned
`H / W + (H mod W)` rows; for `H ≥ 0` the C++ quotient and remainder are the
mathematical ones.  `H = 10`, `W = 3` gives `[0,3)`, `[3,6)`, `[6,10)`; `H = 800`,
`W = 4` gives each rank 200 rows. -/
theorem partition_row_counts (H W : Int) (hW : 1 ≤ W) :
    (∀ i, 0 ≤ i → i < W - 1 →
      startRow H W i = i * Int.tdiv H W ∧
      endRow H W i - startRow H W i = Int.tdiv H W) ∧
    startRow H W (W - 1) = (W - 1) * Int.tdiv H W ∧
    endRow H W (W - 1) = H ∧
    endRow H W (W - 1) - startRow H W (W - 1) = Int.tdiv H W + Int.tmod H W ∧
    (0 ≤ H → Int.tdiv H W = H / W ∧ Int.tmod H W = H % W) ∧
    ((startRow 10 3 0, endRow 10 3 0) = (0, 3) ∧ (startRow 10 3 1, endRow 10 3 1) = (3, 6) ∧
      (startRow 10 3 2, endRow 10 3 2) = (6, 10)) ∧
    (∀ i, 0 ≤ i → i < 4 → endRow 800 4 i - startRow 800 4 i = 200) := by
  have hdm : W * Int.tdiv H W + Int.tmod H W = H := Int.tdiv_add_tmod H W
  refine ⟨?_, rfl, endRow_last H W, ?_, ?_, by decide, ?_⟩
  · intro i _ hi
    refine ⟨rfl, ?_⟩
    unfold endRow
    rw [if_neg (by omega)]
    unfold rowsPerProcess
    omega
  · rw [endRow_last]
    unfold startRow rowsPerProcess
    have : (W - 1) * Int.tdiv H W = W * Int.tdiv H W - Int.tdiv H W := by ring
    omega
  · intro hH
    exact ⟨Int.tdiv_eq_ediv hH (by omega), Int.tmod_eq_emod hH (by omega)⟩
  · intro i hi0 hi4
    have h : i = 0 ∨ i = 1 ∨ i = 2 ∨ i = 3 := by omega
    rcases h with h | h | h | h <;> subst h <;> decide

/-- Witness of C13 at `H = 10`, `W = 3`. -/
theorem partition_row_counts_witness :
    (∀ i, 0 ≤ i → i < (3 : Int) - 1 →
      startRow 10 3 i = i * Int.tdiv 10 3 ∧
      endRow 10 3 i - startRow 10 3 i = Int.tdiv 10 3) ∧
    startRow 10 3 (3 - 1) = (3 - 1) * Int.tdiv 10 3 ∧
    endRow 10 3 (3 - 1) = 10 ∧
    endRow 10 3 (3 - 1) - startRow 10 3 (3 - 1) = Int.tdiv 10 3 + Int.tmod 10 3 ∧
    ((0 : Int) ≤ 10 → Int.tdiv 10 3 = 10 / 3 ∧ Int.tmod 10 3 = 10 % 3) ∧
    ((startRow 10 3 0, endRow 10 3 0) = (0, 3) ∧ (startRow 10 3 1, endRow 10 3 1) = (3, 6) ∧
      (startRow 10 3 2, endRow 10 3 2) = (6, 10)) ∧
    (∀ i, 0 ≤ i → i < 4 → endRow 800 4 i - startRow 800 4 i = 200) :=
  partition_row_counts 10 3 (by decide)
/-! ## The boundary point, the single process, the palette -/

/-- C14: for the boundary point `c = (-2, 0)` and every `maxIterations ≥ 1`,
`calculateMandelbrotIterations` returns 1: after one pass `z = (-2, 0)` with
`|z|^2 = 4`, for which the test `|z|^2 < 4.0` fails; for `maxIterations ≥ 2` the count
differs from the cap, and the pixel gets the colour `(50, 30, 20)` of an escaped point,
not the black of the interior. -/
theorem boundary_point_count (maxIterations : Int) (h : 1 ≤ maxIterations) :
    calculateMandelbrotIterations exactArith maxIterations (-2) 0 = 1 ∧
    orbit exactArith (-2) 0 1 = (-2, 0) ∧
    insideBound exactArith (orbit exactArith (-2) 0 1) = false ∧
    (2 ≤ maxIterations →
      calculateMandelbrotIterations exactArith maxIterations (-2) 0 ≠ maxIterations ∧
      colorOf (calculateMandelbrotIterations exactArith maxIterations (-2) 0) maxIterations
        = (50, 30, 20)) := by
  have h1 := escape_minus_two maxIterations h
  have horb : orbit exactArith (-2) 0 1 = (-2, 0) := by
    simp [orbit, loopBody, exactArith]
  refine ⟨h1, horb, ?_, ?_⟩
  · rw [horb]
    simp only [insideBound, exactArith]
    norm_num
  · intro h2
    rw [h1]
    refine ⟨by omega, ?_⟩
    unfold colorOf
    rw [if_neg (by omega)]
    decide

/-- Witness of C14 at `maxIterations = 1000`. -/
theorem boundary_point_count_witness :
    calculateMandelbrotIterations exactArith 1000 (-2) 0 = 1 ∧
    orbit exactArith (-2) 0 1 = (-2, 0) ∧
    insideBound exactArith (orbit exactArith (-2) 0 1) = false ∧
    ((2 : Int) ≤ 1000 →
      calculateMandelbrotIterations exactArith 1000 (-2) 0 ≠ 1000 ∧
      colorOf (calculateMandelbrotIterations exactArith 1000 (-2) 0) 1000 = (50, 30, 20)) :=
  boundary_point_count 1000 (by decide)

/-- C15, as stated, fails for large images.  At 26755 x 26755 on one process the count
`imageWidth * rowsPerProcess * 3` is 2147490075, above the largest `int`; the 32-bit
product is -2147477221, a count `MPI_Gather` refuses, and no final image is handed over.
At 37838 x 37838 the 32-bit product is 175436: the gather copies 175436 bytes, less than
two rows, and pixel `(0, 18919)`, computed as `(50, 30, 20)`, is never stored in the final
buffer (on zeroed memory it reads `(0, 0, 0)`). -/
theorem large_image_count_overflows :
    (26755 : Int) * 26755 * 3 = 2147490075 ∧
    gatherCount (windowRenderer 26755 26755) 1 = -2147477221 ∧
    (∀ mem : Memory, render exactArith (windowRenderer 26755 26755) 1 mem = none) ∧
    (¬ ∃ img, render exactArith (windowRenderer 26755 26755) 1 zeroMemory = some img ∧
      getAt 26755 img 0 0 = pixelColor exactArith (windowRenderer 26755 26755) 0 0) ∧
    gatherCount (windowRenderer 37838 37838) 1 = 175436 ∧
    pixelColor exactArith (windowRenderer 37838 37838) 0 18919 = (50, 30, 20) ∧
    (∀ mem : Memory,
      render exactArith (windowRenderer 37838 37838) 1 mem
        = some (gatherAsCalled exactArith (windowRenderer 37838 37838) 1 mem) ∧
      getAt 37838 (gatherAsCalled exactArith (windowRenderer 37838 37838) 1 mem) 18919 0
        = getAt 37838 mem.finalImage 18919 0) ∧
    getAt 37838 (gatherAsCalled exactArith (windowRenderer 37838 37838) 1 zeroMemory) 18919 0
      ≠ pixelColor exactArith (windowRenderer 37838 37838) 0 18919 := by
  have hnone : ∀ mem : Memory,
      render exactArith (windowRenderer 26755 26755) 1 mem = none := fun mem =>
    render_eq_none_of_count_neg exactArith (windowRenderer 26755 26755) 1 mem (by decide)
  have hp : pixelColor exactArith (windowRenderer 37838 37838) 0 18919 = (50, 30, 20) :=
    pixelColor_left_middle 37838 18919 (by decide)
  have hb : ∀ mem : Memory,
      getAt 37838 (gatherAsCalled exactArith (windowRenderer 37838 37838) 1 mem) 18919 0
        = getAt 37838 mem.finalImage 18919 0 := by
    intro mem
    unfold getAt
    rw [gatherAsCalled_beyond _ _ _ _ _ (by decide),
      gatherAsCalled_beyond _ _ _ _ _ (by decide),
      gatherAsCalled_beyond _ _ _ _ _ (by decide)]
  refine ⟨by decide, by decide, hnone, ?_, by decide, hp,
    fun mem => ⟨render_one _ _ mem (by decide), hb mem⟩, ?_⟩
  · rintro ⟨img, himg, _⟩
    rw [hnone] at himg
    exact Option.noConfusion himg
  · rw [hb, hp]
    decide

/-- C15, amended: with exactly one process, for every image whose byte size
`imageWidth * imageHeight * 3` fits a 32-bit `int` (at most 2147483647) and every
`(x, y)` with `0 ≤ x < imageWidth` and `0 ≤ y < imageHeight`, `render` completes and the
pixel of the final buffer at `(x, y)` is `colorOf(iterate(cr, ci), maxIterations)` for
`cr = minX + (maxX-minX)*x/imageWidth`, `ci = minY + (maxY-minY)*y/imageHeight`. -/
theorem single_worker_image {α : Type} (A : Arith α) (R : MandelbrotRenderer α)
    (mem : Memory) (x y : Int) (hx0 : 0 ≤ x) (hx1 : x < R.imageWidth)
    (hy0 : 0 ≤ y) (hy1 : y < R.imageHeight)
    (hfit : R.imageWidth * R.imageHeight * 3 ≤ 2147483647) :
    ∃ img, render A R 1 mem = some img ∧
      getAt R.imageWidth img y x
        = colorOf
            (calculateMandelbrotIterations A R.maxIterations
              (A.add R.minX
                (A.div (A.mul (A.sub R.maxX R.minX) (A.ofInt x)) (A.ofInt R.imageWidth)))
              (A.add R.minY
                (A.div (A.mul (A.sub R.maxY R.minY) (A.ofInt y)) (A.ofInt R.imageHeight))))
            R.maxIterations :=
  ⟨_, render_one A R mem (gatherCount_single R (by omega) (by omega) hfit).2,
    gatherAsCalled_single A R mem x y hx0 hx1 hy0 hy1 hfit⟩

/-- Witness of the amended C15: the reference configuration, pixel `(799, 799)`. -/
theorem single_worker_image_witness :
    ∃ img, render exactArith referenceRenderer 1 zeroMemory = some img ∧
      getAt referenceRenderer.imageWidth img 799 799
        = colorOf
            (calculateMandelbrotIterations exactArith referenceRenderer.maxIterations
              (exactArith.add referenceRenderer.minX
                (exactArith.div
                  (exactArith.mul
                    (exactArith.sub referenceRenderer.maxX referenceRenderer.minX)
                    (exactArith.ofInt 799))
                  (exactArith.ofInt referenceRenderer.imageWidth)))
              (exactArith.add referenceRenderer.minY
                (exactArith.div
                  (exactArith.mul
                    (exactArith.sub referenceRenderer.maxY referenceRenderer.minY)
                    (exactArith.ofInt 799))
                  (exactArith.ofInt referenceRenderer.imageHeight))))
            referenceRenderer.maxIterations :=
  single_worker_image exactArith referenceRenderer zeroMemory 799 799
    (by decide) (by decide) (by decide) (by decide) (by decide)

/-- C16, as stated, fails: `generateUniqueColor(42949650) = (0, 0, 0)` but
`generateUniqueColor(42949650 + 51) = (255, 0, 0)`, because
`42949701 * 50 = 2147485050` does not fit a 32-bit `int` (the machine product is
-2147482246, whose remainder -1 is stored as 255). -/
theorem generateUniqueColor_period_breaks :
    (0 : Int) ≤ 42949650 ∧
    (42949701 : Int) * 50 = 2147485050 ∧ wrapInt32 (42949701 * 50) = -2147482246 ∧
    generateUniqueColor 42949650 = (0, 0, 0) ∧
    generateUniqueColor (42949650 + 51) = (255, 0, 0) ∧
    generateUniqueColor (42949650 + 51) ≠ generateUniqueColor 42949650 := by
  decide

/-- C16, amended: `generateUniqueColor` has period 51 on the counts whose products fit a
32-bit `int`: for every `n ≥ 0` with `n + 51 ≤ 42949672`,
`generateUniqueColor(n + 51) = generateUniqueColor(n)`, so the colour is that of
`n mod 51`, one of at most 51 colours; `generateUniqueColor(51) = (0, 0, 0)`, hence for
`maxIterations > 51` a pixel that escaped with count 51 is stored with the same black
as a pixel whose count is `maxIterations`. -/
theorem generateUniqueColor_period (n maxIterations : Int) (hn : 0 ≤ n)
    (hfit : n + 51 ≤ 42949672) (hmax : 51 < maxIterations) :
    generateUniqueColor (n + 51) = generateUniqueColor n ∧
    generateUniqueColor n = generateUniqueColor (n % 51) ∧
    generateUniqueColor 51 = (0, 0, 0) ∧
    colorOf 51 maxIterations = (0, 0, 0) ∧
    colorOf 51 maxIterations = colorOf maxIterations maxIterations := by
  have h51 : colorOf 51 maxIterations = (0, 0, 0) := by
    unfold colorOf
    rw [if_neg (by omega)]
    decide
  have hcap : colorOf maxIterations maxIterations = (0, 0, 0) := by
    unfold colorOf
    rw [if_pos rfl]
    rfl
  refine ⟨?_, ?_, by decide, h51, by rw [h51, hcap]⟩
  · rw [generateUniqueColor_of_small hn (by omega),
      generateUniqueColor_of_small (by omega) hfit]
    have e1 : (n + 51) * 50 % 255 = n * 50 % 255 := by omega
    have e2 : (n + 51) * 30 % 255 = n * 30 % 255 := by omega
    have e3 : (n + 51) * 20 % 255 = n * 20 % 255 := by omega
    rw [e1, e2, e3]
  · rw [generateUniqueColor_of_small hn (by omega),
      generateUniqueColor_of_small (Int.emod_nonneg n (by decide)) (by omega)]
    have e1 : n % 51 * 50 % 255 = n * 50 % 255 := by omega
    have e2 : n % 51 * 30 % 255 = n * 30 % 255 := by omega
    have e3 : n % 51 * 20 % 255 = n * 20 % 255 := by omega
    rw [e1, e2, e3]

/-- Witness of the amended C16 at `n = 7`, `maxIterations = 1000`. -/
theorem generateUniqueColor_period_witness :
    generateUniqueColor (7 + 51) = generateUniqueColor 7 ∧
    generateUniqueColor 7 = generateUniqueColor (7 % 51) ∧
    generateUniqueColor 51 = (0, 0, 0) ∧
    colorOf 51 1000 = (0, 0, 0) ∧
    colorOf 51 1000 = colorOf 1000 1000 :=
  generateUniqueColor_period 7 1000 (by decide) (by decide) (by decide)

/-! ## The cap, conjugation, the sampled window -/

/-- The count for a cap `m ≥ 0` is the first step of the orbit at which the cap is
reached or the bound test fails. -/
theorem calculateMandelbrotIterations_least {α : Type} (A : Arith α) (m : Int) (cr ci : α)
    (hm : 0 ≤ m) :
    ∃ k : Nat, calculateMandelbrotIterations A m cr ci = (k : Int) ∧ (k : Int) ≤ m ∧
      ((k : Int) = m ∨ insideBound A (orbit A cr ci k) = false) ∧
      ∀ i : Nat, i < k → ¬ ((i : Int) = m ∨ insideBound A (orbit A cr ci i) = false) := by
  obtain ⟨k, _, hk, hle, hstop, hmin⟩ :=
    escapeLoop_least A m cr ci m.toNat 0 (by simp [Int.toNat_of_nonneg hm])
  refine ⟨k, ?_, hle, hstop, fun i hi => hmin i (Nat.zero_le i) hi⟩
  unfold calculateMandelbrotIterations
  simpa [orbit] using hk

/-- C17: raising the cap never changes the count of a point that has already escaped:
for every arithmetic, every point `c` and all caps `0 ≤ m ≤ m'`,
`iterate(c, m) = min(m, iterate(c, m'))`; in particular the count is non-decreasing in
the cap. -/
theorem count_cap_min {α : Type} (A : Arith α) (cr ci : α) (m m' : Int)
    (hm : 0 ≤ m) (hmm : m ≤ m') :
    calculateMandelbrotIterations A m cr ci
      = min m (calculateMandelbrotIterations A m' cr ci) ∧
    calculateMandelbrotIterations A m cr ci ≤ calculateMandelbrotIterations A m' cr ci := by
  obtain ⟨k, hk, hkle, hkstop, hkmin⟩ := calculateMandelbrotIterations_least A m cr ci hm
  obtain ⟨k', hk', hkle', hkstop', hkmin'⟩ :=
    calculateMandelbrotIterations_least A m' cr ci (by omega)
  rw [hk, hk']
  have key : (k : Int) = min m (k' : Int) := by
    rcases Nat.lt_trichotomy k k' with hlt | heq | hgt
    · have hnot := hkmin' k hlt
      rcases hkstop with h1 | h1
      · rw [h1]
        have : m ≤ (k' : Int) := by omega
        exact (min_eq_left this).symm
      · exact absurd (Or.inr h1) hnot
    · subst heq
      exact (min_eq_right hkle).symm
    · have hnot := hkmin k' hgt
      rcases hkstop' with h1 | h1
      · omega
      · exact absurd (Or.inr h1) hnot
  refine ⟨key, ?_⟩
  rw [key]
  exact min_le_right _ _

/-- Witness of C17: the point `(-2, 0)` with the caps 5 and 1000 over exact arithmetic. -/
theorem count_cap_min_witness :
    calculateMandelbrotIterations exactArith 5 (-2) 0
      = min 5 (calculateMandelbrotIterations exactArith 1000 (-2) 0) ∧
    calculateMandelbrotIterations exactArith 5 (-2) 0
      ≤ calculateMandelbrotIterations exactArith 1000 (-2) 0 :=
  count_cap_min exactArith (-2) 0 5 1000 (by decide) (by decide)

/-- For an arithmetic that is symmetric under a conjugation relation `conj` (squares of
conjugate values agree, and `x * a + c`, `x * b + d` are conjugate when `a`, `b` and
`c`, `d` are), the loop started at conjugate states for conjugate points counts the
same. -/
theorem escapeLoop_conj {α : Type} (A : Arith α) (conj : α → α → Prop)
    (hsq : ∀ a b, conj a b → A.mul b b = A.mul a a)
    (hstep : ∀ x a b c d, conj a b → conj c d →
      conj (A.add (A.mul x a) c) (A.add (A.mul x b) d))
    (maxIterations : Int) (cr ci ci' : α) (hci : conj ci ci') :
    ∀ (d : Nat) (zr zi zi' : α) (iterations : Int), maxIterations - iterations ≤ d →
      conj zi zi' →
      escapeLoop A maxIterations cr ci' zr zi' iterations
        = escapeLoop A maxIterations cr ci zr zi iterations := by
  intro d
  induction d with
  | zero =>
    intro zr zi zi' it hd _
    rw [escapeLoop_unfold, if_neg (fun hc => by omega), escapeLoop_unfold,
      if_neg (fun hc => by omega)]
  | succ d ih =>
    intro zr zi zi' it hd hz
    rw [escapeLoop_unfold, escapeLoop_unfold A maxIterations cr ci zr zi it, hsq zi zi' hz]
    split
    · exact ih _ _ _ (it + 1) (by push_cast at hd; omega)
        (hstep (A.mul (A.ofInt 2) zr) zi zi' ci ci' hz hci)
    · rfl

/-- C18: the iteration count is symmetric under complex conjugation,
`calculateMandelbrotIterations(cr, -ci) = calculateMandelbrotIterations(cr, ci)` for
every `cr`, `ci` and `maxIterations`, for every arithmetic that is sign-symmetric: there
is a relation `conj` ("equal up to sign") with `conj a (-a)` and `conj 0.0 0.0`, under
which `b * b = a * a` for conjugate `a`, `b`, and `x * a + c`, `x * b + d` are conjugate
whenever `a`, `b` and `c`, `d` are.  Round-to-nearest arithmetic on `double` is
sign-symmetric in this sense (negation is exact and rounding is symmetric about zero, the
two zeros being conjugate to each other), and so is exact arithmetic. -/
theorem count_conj_symmetric {α : Type} (A : Arith α) (neg : α → α) (conj : α → α → Prop)
    (hneg : ∀ a, conj a (neg a))
    (hzero : conj (A.ofInt 0) (A.ofInt 0))
    (hsq : ∀ a b, conj a b → A.mul b b = A.mul a a)
    (hstep : ∀ x a b c d, conj a b → conj c d →
      conj (A.add (A.mul x a) c) (A.add (A.mul x b) d))
    (maxIterations : Int) (cr ci : α) :
    calculateMandelbrotIterations A maxIterations cr (neg ci)
      = calculateMandelbrotIterations A maxIterations cr ci := by
  unfold calculateMandelbrotIterations
  exact escapeLoop_conj A conj hsq hstep maxIterations cr ci (neg ci) (hneg ci)
    maxIterations.toNat (A.ofInt 0) (A.ofInt 0) (A.ofInt 0) 0 (by omega) hzero

/-- Witness of C18: exact arithmetic, with `conj a b` the relation `b = -a`, at the point
`(-2, 1/2)` with cap 1000. -/
theorem count_conj_symmetric_witness :
    calculateMandelbrotIterations exactArith 1000 (-2) (-(1 / 2))
      = calculateMandelbrotIterations exactArith 1000 (-2) (1 / 2) :=
  count_conj_symmetric exactArith (fun a => -a) (fun a b => b = -a)
    (fun _ => rfl)
    (by simp [exactArith])
    (fun a b h => by
      subst h
      simp [exactArith])
    (fun x a b c d hab hcd => by
      subst hab
      subst hcd
      simp only [exactArith]
      ring)
    1000 (-2) (1 / 2)

/-- C19: over exact arithmetic, for a window with `minX < maxX` and `minY < maxY` and
positive image dimensions, every pixel `(x, y)` with `0 ≤ x < imageWidth` and
`0 ≤ y < imageHeight` maps to a point with `minX ≤ cr < maxX` and `minY ≤ ci < maxY`;
column 0 maps exactly to `minX` and row 0 exactly to `minY`, so `maxX` and `maxY` are
never sampled. -/
theorem plane_point_in_window (R : MandelbrotRenderer ℚ) (x y : Int)
    (hX : R.minX < R.maxX) (hY : R.minY < R.maxY)
    (hx0 : 0 ≤ x) (hx1 : x < R.imageWidth) (hy0 : 0 ≤ y) (hy1 : y < R.imageHeight) :
    (R.minX ≤ planeX exactArith R x ∧ planeX exactArith R x < R.maxX) ∧
    (R.minY ≤ planeY exactArith R y ∧ planeY exactArith R y < R.maxY) ∧
    planeX exactArith R 0 = R.minX ∧ planeY exactArith R 0 = R.minY ∧
    planeX exactArith R x ≠ R.maxX ∧ planeY exactArith R y ≠ R.maxY := by
  have hw : (0 : ℚ) < (R.imageWidth : ℚ) := by exact_mod_cast (show 0 < R.imageWidth by omega)
  have hh : (0 : ℚ) < (R.imageHeight : ℚ) := by
    exact_mod_cast (show 0 < R.imageHeight by omega)
  have hxq0 : (0 : ℚ) ≤ (x : ℚ) := by exact_mod_cast hx0
  have hyq0 : (0 : ℚ) ≤ (y : ℚ) := by exact_mod_cast hy0
  have hxq1 : (x : ℚ) < (R.imageWidth : ℚ) := by exact_mod_cast hx1
  have hyq1 : (y : ℚ) < (R.imageHeight : ℚ) := by exact_mod_cast hy1
  have hdX : 0 < R.maxX - R.minX := by linarith
  have hdY : 0 < R.maxY - R.minY := by linarith
  have ex : planeX exactArith R x = R.minX + (R.maxX - R.minX) * x / R.imageWidth := rfl
  have ey : planeY exactArith R y = R.minY + (R.maxY - R.minY) * y / R.imageHeight := rfl
  have hx_lo : 0 ≤ (R.maxX - R.minX) * x / R.imageWidth :=
    div_nonneg (mul_nonneg hdX.le hxq0) hw.le
  have hy_lo : 0 ≤ (R.maxY - R.minY) * y / R.imageHeight :=
    div_nonneg (mul_nonneg hdY.le hyq0) hh.le
  have hx_hi : (R.maxX - R.minX) * x / R.imageWidth < R.maxX - R.minX := by
    rw [div_lt_iff₀ hw]
    exact mul_lt_mul_of_pos_left hxq1 hdX
  have hy_hi : (R.maxY - R.minY) * y / R.imageHeight < R.maxY - R.minY := by
    rw [div_lt_iff₀ hh]
    exact mul_lt_mul_of_pos_left hyq1 hdY
  have bx : R.minX ≤ planeX exactArith R x ∧ planeX exactArith R x < R.maxX := by
    rw [ex]
    exact ⟨by linarith, by linarith⟩
  have bY : R.minY ≤ planeY exactArith R y ∧ planeY exactArith R y < R.maxY := by
    rw [ey]
    exact ⟨by linarith, by linarith⟩
  refine ⟨bx, bY, ?_, ?_, ne_of_lt bx.2, ne_of_lt bY.2⟩
  · simp [planeX, exactArith]
  · simp [planeY, exactArith]

/-- Witness of C19: the reference configuration, pixel `(799, 799)`. -/
theorem plane_point_in_window_witness :
    (referenceRenderer.minX ≤ planeX exactArith referenceRenderer 799 ∧
      planeX exactArith referenceRenderer 799 < referenceRenderer.maxX) ∧
    (referenceRenderer.minY ≤ planeY exactArith referenceRenderer 799 ∧
      planeY exactArith referenceRenderer 799 < referenceRenderer.maxY) ∧
    planeX exactArith referenceRenderer 0 = referenceRenderer.minX ∧
    planeY exactArith referenceRenderer 0 = referenceRenderer.minY ∧
    planeX exactArith referenceRenderer 799 ≠ referenceRenderer.maxX ∧
    planeY exactArith referenceRenderer 799 ≠ referenceRenderer.maxY :=
  plane_point_in_window referenceRenderer 799 799
    (by norm_num [referenceRenderer]) (by norm_num [referenceRenderer])
    (by decide) (by decide) (by decide) (by decide)

end Mandelbrot
